import Mathlib

/-!
IBDCostFunction.h : the tokenizer and the IBD distance cost model.

A shallow embedding of `tokenizeB` and of the class `IBDDistanceCost`
(`include/IBDCostFunction.h`).

* `std::string` is a `List Char`; `std::vector<T>` is a `List T`.
* `std::size_t` values are natural numbers: every counter of `tokenizeB` is bounded by
  the length of the line, so no arithmetic on them can wrap; the size `max_otu + 1` of the
  matrix is reduced modulo `2 ^ 64`.
* A C++ exception is a value of `Error`; a function that can throw returns `Except Error _`.
* A `double` is a `Double`: an exact rational number, an infinity, or not a number.  The
  operations on it are exact; the definitions named `..._binary64` are the same code with the
  rounding of the binary64 format, for the properties that depend on it.
* The file that the constructor reads is the list of its lines.
* `ged::DMatrix` comes from a header that is not part of the sources: its operations are
  modelled from the description of the matrix utility in the specification.
* `alpha_`, which the two overloads of `EdgeSubstitutionCost` read, is declared nowhere in
  the file (the member that the constructor sets is `_alpha`): it is a parameter of their
  models, of type `double`.
-/

namespace IBDCostFunction

/-- The ways in which the code can leave its normal control flow. -/
inductive Error where
  /-- `Error("Sentence contains closing single quote which is followed by a char different
  from ...")`, thrown by `tokenizeB`. -/
  | closing_quote
  /-- `Error("Sentence contains unbalanced single quotes.")`, thrown by `tokenizeB`. -/
  | unbalanced_quotes
  /-- `std::out_of_range`, thrown by `at`, `substr`, `stoul` and `stod`. -/
  | out_of_range
  /-- `std::invalid_argument`, thrown by `stoul` and `stod`. -/
  | invalid_argument
  /-- An operation for which C++ defines no outcome: an access outside the storage of the
  matrix, an overflow in `int` arithmetic, a conversion to `int` of a value outside its
  range. -/
  | undefined_behaviour
  deriving DecidableEq, Repr

deriving instance DecidableEq for Except

/-- `std::string::at(pos)`: the character at `pos`, `std::out_of_range` when
`pos >= size()`. -/
def string_at (sentence : List Char) (pos : Nat) : Except Error Char :=
  match sentence.get? pos with
  | some c => Except.ok c
  | none => Except.error Error.out_of_range

/-- `std::string::substr(pos, len)`: the characters `[pos, min(pos + len, size()))`,
`std::out_of_range` when `pos > size()`. -/
def string_substr (sentence : List Char) (pos len : Nat) : Except Error (List Char) :=
  if pos ≤ sentence.length then Except.ok ((sentence.drop pos).take len)
  else Except.error Error.out_of_range

/-- The local variables of `tokenizeB` that live across loop iterations, together with the
output parameter `words`. -/
structure TokenizeState where
  outside_quotes : Bool
  word_length : Nat
  pos_word_start : Nat
  words : List (List Char)
  deriving DecidableEq, Repr

/-- One iteration of the `for` loop of `tokenizeB` (lines 14-32), at index `pos`. -/
def tokenizeB_body (sentence : List Char) (sep : Char) (st : TokenizeState) (pos : Nat) :
    Except Error TokenizeState :=
  match string_at sentence pos with
  | Except.error e => Except.error e
  | Except.ok c =>
    if c = '\'' then
      if (!st.outside_quotes) && decide (pos < sentence.length - 1) then
        match string_at sentence (pos + 1) with
        | Except.error e => Except.error e
        | Except.ok c1 =>
          if c1 ≠ sep then Except.error Error.closing_quote
          else Except.ok { st with word_length := st.word_length + 1,
                                   outside_quotes := !st.outside_quotes }
      else Except.ok { st with word_length := st.word_length + 1,
                               outside_quotes := !st.outside_quotes }
    else if st.outside_quotes && decide (c = sep) then
      if st.word_length > 0 then
        match string_substr sentence st.pos_word_start st.word_length with
        | Except.error e => Except.error e
        | Except.ok w =>
          Except.ok { st with words := st.words ++ [w], pos_word_start := pos + 1,
                              word_length := 0 }
      else Except.ok { st with pos_word_start := pos + 1, word_length := 0 }
    else Except.ok { st with word_length := st.word_length + 1 }

/-- The part of `tokenizeB` after the loop (lines 34-39). -/
def tokenizeB_finish (sentence : List Char) (st : TokenizeState) :
    Except Error (List (List Char)) :=
  if !st.outside_quotes then Except.error Error.unbalanced_quotes
  else if st.word_length > 0 then
    match string_substr sentence st.pos_word_start st.word_length with
    | Except.error e => Except.error e
    | Except.ok w => Except.ok (st.words ++ [w])
  else Except.ok st.words

/-- `tokenizeB(sentence, sep, words)`: `words` is the content of the output vector at the
call, the result is its content at the return.  The loop runs `pos` over
`0, 1, ..., sentence.size() - 1`. -/
def tokenizeB (sentence : List Char) (sep : Char) (words : List (List Char)) :
    Except Error (List (List Char)) :=
  match (List.range sentence.length).foldlM (tokenizeB_body sentence sep)
      { outside_quotes := true, word_length := 0, pos_word_start := 0, words := words } with
  | Except.error e => Except.error e
  | Except.ok st => tokenizeB_finish sentence st

/-- The loop of `tokenizeB` read off the remaining characters: `rest` is the part of the line
not yet visited, `cur` the characters of the current word.  `tokenizeB_eq_scan` shows that
`tokenizeB` computes `scan`. -/
def scan (sep : Char) : List Char → Bool → List Char → List (List Char) →
    Except Error (List (List Char))
  | [], outside, cur, words =>
    if !outside then Except.error Error.unbalanced_quotes
    else if cur ≠ [] then Except.ok (words ++ [cur]) else Except.ok words
  | c :: rest, outside, cur, words =>
    if c = '\'' then
      if outside = false ∧ rest ≠ [] ∧ rest.head? ≠ some sep then
        Except.error Error.closing_quote
      else scan sep rest (!outside) (cur ++ [c]) words
    else if outside = true ∧ c = sep then
      scan sep rest outside [] (if cur ≠ [] then words ++ [cur] else words)
    else scan sep rest outside (cur ++ [c]) words

/-! Library functions used by the constructor -/

/-- `std::vector<T>::at(pos)`: the element at `pos`, `std::out_of_range` when
`pos >= size()`. -/
def vector_at {T : Type} (v : List T) (pos : Nat) : Except Error T :=
  match v.get? pos with
  | some x => Except.ok x
  | none => Except.error Error.out_of_range

/-- `isspace` in the "C" locale. -/
def is_space (c : Char) : Bool :=
  c = ' ' || c = '\t' || c = '\n' || c = '\x0b' || c = '\x0c' || c = '\r'

/-- The value of a string of decimal digits. -/
def digits_value (ds : List Char) : Nat :=
  ds.foldl (fun acc c => 10 * acc + (c.toNat - '0'.toNat)) 0

/-- An optional sign in front of a number: whether it is a minus, and the characters after
it. -/
def read_sign : List Char → Bool × List Char
  | '-' :: t => (true, t)
  | '+' :: t => (false, t)
  | s => (false, s)

/-- `std::stoul(str)` (base 10, `unsigned long` of 64 bits): leading white space is skipped,
an optional sign and the longest run of digits are read and what follows is ignored;
`std::invalid_argument` when there is no digit, `std::out_of_range` when the digits exceed
`ULONG_MAX`; a minus sign negates the value modulo `2^64`. -/
def stoul (str : List Char) : Except Error Nat :=
  let s := read_sign (str.dropWhile is_space)
  let ds := s.2.takeWhile Char.isDigit
  if ds = [] then Except.error Error.invalid_argument
  else if digits_value ds ≥ 2 ^ 64 then Except.error Error.out_of_range
  else Except.ok (if s.1 then (2 ^ 64 - digits_value ds) % 2 ^ 64 else digits_value ds)

/-- A `double`, idealised: a finite value is an exact rational number (there is no rounding
and no signed zero), and the special values that a division can produce are kept apart. -/
inductive Double where
  | val (q : ℚ)
  | inf (negative : Bool)
  | nan
  deriving DecidableEq

/-- Multiplication of `double` values. -/
def Double.mul : Double → Double → Double
  | Double.val a, Double.val b => Double.val (a * b)
  | Double.val a, Double.inf s =>
    if a = 0 then Double.nan else Double.inf (xor s (decide (a < 0)))
  | Double.inf s, Double.val b =>
    if b = 0 then Double.nan else Double.inf (xor s (decide (b < 0)))
  | Double.inf s, Double.inf t => Double.inf (xor s t)
  | _, _ => Double.nan

/-- Division of `double` values: a finite value divided by zero is an infinity, or not a
number when it is zero itself. -/
def Double.div : Double → Double → Double
  | Double.val a, Double.val b =>
    if b ≠ 0 then Double.val (a / b)
    else if a = 0 then Double.nan else Double.inf (decide (a < 0))
  | Double.val _, Double.inf _ => Double.val 0
  | Double.inf s, Double.val b => Double.inf (xor s (decide (b < 0)))
  | _, _ => Double.nan

/-- The comparison `a < b` of `double` values: false whenever one of them is not a number. -/
def Double.lt : Double → Double → Bool
  | Double.val a, Double.val b => decide (a < b)
  | Double.val _, Double.inf s => !s
  | Double.inf s, Double.val _ => s
  | Double.inf s, Double.inf t => s && !t
  | _, _ => false

/-- Subtraction of `double` values. -/
def Double.sub : Double → Double → Double
  | Double.val a, Double.val b => Double.val (a - b)
  | Double.val _, Double.inf s => Double.inf (!s)
  | Double.inf s, Double.val _ => Double.inf s
  | Double.inf s, Double.inf t => if s = t then Double.nan else Double.inf s
  | _, _ => Double.nan

/-- `std::abs` on `double` values. -/
def Double.abs : Double → Double
  | Double.val a => Double.val |a|
  | Double.inf _ => Double.inf false
  | Double.nan => Double.nan

/-- The largest finite `double`. -/
def dbl_max : ℚ := (2 ^ 53 - 1) * 2 ^ 971

/-- The smallest positive normal `double`. -/
def dbl_min : ℚ := 1 / 2 ^ 1022

/-- A decimal literal as it is read: the sign, the digits of the integer part and of the
fraction part taken as one number, the number of fraction digits, and the exponent. -/
structure Decimal where
  negative : Bool
  mantissa : Nat
  fraction_digits : Nat
  exponent : Int
  deriving DecidableEq, Repr

/-- The exponent part of a decimal literal, `e` or `E`, an optional sign and digits: its
value, `0` when there is no such part. -/
def read_exponent : List Char → Int
  | c :: t =>
    if c = 'e' ∨ c = 'E' then
      let s := read_sign t
      let ds := s.2.takeWhile Char.isDigit
      if s.1 then - (digits_value ds : Int) else (digits_value ds : Int)
    else 0
  | [] => 0

/-- The fraction digits of a decimal literal (after a `.`, when there is one) and the
characters that follow them. -/
def read_fraction : List Char → List Char × List Char
  | '.' :: t => (t.takeWhile Char.isDigit, t.dropWhile Char.isDigit)
  | s => ([], s)

/-- The longest decimal literal at the start of `str`, after leading white space: an optional
sign, digits with an optional fraction, and an optional exponent; `none` when no digit can
be read. -/
def read_decimal (str : List Char) : Option Decimal :=
  let s := read_sign (str.dropWhile is_space)
  let ip := s.2.takeWhile Char.isDigit
  let f := read_fraction (s.2.dropWhile Char.isDigit)
  if ip = [] ∧ f.1 = [] then none
  else some { negative := s.1, mantissa := digits_value (ip ++ f.1),
              fraction_digits := f.1.length, exponent := read_exponent f.2 }

/-- The absolute value of a decimal literal. -/
def Decimal.magnitude (d : Decimal) : ℚ :=
  (d.mantissa : ℚ) / 10 ^ d.fraction_digits * 10 ^ d.exponent

/-- `std::stod(str)` on decimal literals: the longest decimal literal at the start of `str`
is read and what follows is ignored.  `std::invalid_argument` when no digit can be read,
`std::out_of_range` when the value is beyond the range of `double`.  The value read is taken
exactly.  The literals `inf`, `nan` and the hexadecimal form, which `strtod` accepts as
well, are not modelled: they count as no conversion, or are read up to their first
letter. -/
def stod (str : List Char) : Except Error Double :=
  match read_decimal str with
  | none => Except.error Error.invalid_argument
  | some d =>
    if dbl_max < d.magnitude ∨ (0 < d.magnitude ∧ d.magnitude < dbl_min) then
      Except.error Error.out_of_range
    else Except.ok (Double.val (if d.negative then - d.magnitude else d.magnitude))

/-! The matrix -/

/-- Modelled from the spec: `ged::DMatrix` of `src/env/matrix.hpp`, which is not among the
sources: "2D indexed storage with resize, fill, elementwise division by a scalar, and
max-element query".  The storage has `num_rows * num_cols` cells, `cell i j` is the content
of the cell `(i, j)`. -/
structure DMatrix where
  num_rows : Nat
  num_cols : Nat
  cell : Nat → Nat → Double

/-- Modelled from the spec: the default constructor of `ged::DMatrix`, an empty matrix. -/
def DMatrix.empty : DMatrix :=
  { num_rows := 0, num_cols := 0, cell := fun _ _ => Double.val 0 }

/-- Modelled from the spec: `resize(rows, cols)` of `ged::DMatrix`. -/
def DMatrix.resize (m : DMatrix) (rows cols : Nat) : DMatrix :=
  { m with num_rows := rows, num_cols := cols }

/-- Modelled from the spec: `set_to_val(val)` of `ged::DMatrix`, the fill. -/
def DMatrix.set_to_val (m : DMatrix) (v : Double) : DMatrix :=
  { m with cell := fun _ _ => v }

/-- Modelled from the spec: reading `m(row, col)` of `ged::DMatrix`.  The indices are not
checked by the code: outside the storage the access has no defined outcome. -/
def DMatrix.get (m : DMatrix) (row col : Nat) : Except Error Double :=
  if row < m.num_rows ∧ col < m.num_cols then Except.ok (m.cell row col)
  else Except.error Error.undefined_behaviour

/-- Modelled from the spec: the assignment `m(row, col) = v` of `ged::DMatrix`.  The indices
are not checked by the code: outside the storage the access has no defined outcome. -/
def DMatrix.set (m : DMatrix) (row col : Nat) (v : Double) : Except Error DMatrix :=
  if row < m.num_rows ∧ col < m.num_cols then
    Except.ok { m with cell := fun i j => if i = row ∧ j = col then v else m.cell i j }
  else Except.error Error.undefined_behaviour

/-- The cells of the matrix, row by row. -/
def DMatrix.cells (m : DMatrix) : List Double :=
  (List.range m.num_rows).flatMap (fun i => (List.range m.num_cols).map (fun j => m.cell i j))

/-- Modelled from the spec: `max()` of `ged::DMatrix`, the max-element query: a scan of the
cells that keeps the larger one, from the cell `(0, 0)`.  Of an empty matrix there is no
maximum. -/
def DMatrix.max (m : DMatrix) : Except Error Double :=
  if m.num_rows = 0 ∨ m.num_cols = 0 then Except.error Error.undefined_behaviour
  else Except.ok (m.cells.foldl (fun best x => if Double.lt best x then x else best)
    (m.cell 0 0))

/-- Modelled from the spec: `m /= scalar` of `ged::DMatrix`, the elementwise division by a
scalar. -/
def DMatrix.div_assign (m : DMatrix) (scalar : Double) : DMatrix :=
  { m with cell := fun i j => Double.div (m.cell i j) scalar }

/-! The cost model -/

/-- The data members of `IBDDistanceCost`. -/
structure IBDDistanceCost where
  _alpha : Double
  node_rel_costs_ : DMatrix
  otus_ : List Nat

/-- Modelled from the spec: a node `GNode<int,double>` of the graph library, whose header is
not among the sources.  The cost model is queried with "a node's integer attribute", the
only part of the node that the code reads. -/
structure GNode where
  attr : Int

/-- The conversion of an `int` to `std::size_t`: the value modulo `2 ^ 64`. -/
def to_size_t (i : Int) : Nat := (i % 2 ^ 64).toNat

/-- The identifier of a label (lines 101-103 and 114-116): the label is tokenized on `'_'`
into the cleared vector `otu_as_vector`, and `std::stoul(otu_as_vector.at(1))` is read. -/
def read_otu ( otu_with_prefix : List Char) : Except Error Nat :=
  match tokenizeB otu_with_prefix '_' [] with
  | Except.error e => Except.error e
  | Except.ok otu_as_vector =>
    match vector_at otu_as_vector 1 with
    | Except.error e => Except.error e
    | Except.ok s => stoul s

/-- One iteration of the loop over the header labels (lines 100-105): the state is `otus_`
and `max_otu`. -/
def header_body (st : List Nat × Nat) ( otu_with_prefix : List Char) :
    Except Error (List Nat × Nat) :=
  match read_otu otu_with_prefix with
  | Except.error e => Except.error e
  | Except.ok otu => Except.ok (st.1 ++ [otu], Nat.max st.2 otu)

/-- One iteration of the loop over the value fields of a data row (lines 117-120), at index
`pos`: the right-hand side of the assignment is evaluated before the cell is accessed. -/
def row_body (otus_ : List Nat) (row_as_vector : List (List Char)) (otu_1 : Nat)
    (m : DMatrix) (pos : Nat) : Except Error DMatrix :=
  match vector_at otus_ (pos - 1) with
  | Except.error e => Except.error e
  | Except.ok otu_2 =>
    match vector_at row_as_vector pos with
    | Except.error e => Except.error e
    | Except.ok field =>
      match stod field with
      | Except.error e => Except.error e
      | Except.ok v => m.set otu_1 otu_2 v

/-- One iteration of the loop over the data rows (lines 111-121): `row` is the line that
`std::getline` has read. -/
def rows_body (otus_ : List Nat) (m : DMatrix) (row : List Char) : Except Error DMatrix :=
  match tokenizeB row ',' [] with
  | Except.error e => Except.error e
  | Except.ok row_as_vector =>
    match vector_at row_as_vector 0 with
    | Except.error e => Except.error e
    | Except.ok label =>
      match read_otu label with
      | Except.error e => Except.error e
      | Except.ok otu_1 =>
        (List.range' 1 (row_as_vector.length - 1)).foldlM
          (row_body otus_ row_as_vector otu_1) m

/-- The constructor up to the end of the loop over the data rows (lines 93-121): `otus_` and
the matrix before it is normalized.  `csv_file` is the list of the lines of the file, as
successive calls of `std::getline` deliver them; when there is no first line `row` stays
empty.  The sizes `max_otu + 1` are computed in `std::size_t`. -/
def IBDDistanceCost.load (csv_file : List (List Char)) : Except Error (List Nat × DMatrix) :=
  let row := csv_file.headD []
  match tokenizeB row ',' [] with
  | Except.error e => Except.error e
  | Except.ok row_as_vector =>
    match row_as_vector.foldlM header_body ([], 0) with
    | Except.error e => Except.error e
    | Except.ok (otus_, max_otu) =>
      let node_rel_costs_ :=
        (DMatrix.empty.resize ((max_otu + 1) % 2 ^ 64) ((max_otu + 1) % 2 ^ 64)).set_to_val
          (Double.val 0)
      match csv_file.tail.foldlM (rows_body otus_) node_rel_costs_ with
      | Except.error e => Except.error e
      | Except.ok m => Except.ok (otus_, m)

/-- The constructor `IBDDistanceCost(otu_distances, alpha)` (lines 90-123): the file is
loaded and the matrix is divided by its maximum. -/
def IBDDistanceCost.ctor (csv_file : List (List Char)) (alpha : Double) :
    Except Error IBDDistanceCost :=
  match IBDDistanceCost.load csv_file with
  | Except.error e => Except.error e
  | Except.ok (otus_, m) =>
    match m.max with
    | Except.error e => Except.error e
    | Except.ok mx =>
      Except.ok { _alpha := alpha, node_rel_costs_ := m.div_assign mx, otus_ := otus_ }

/-- `NodeSubstitutionCost(n1, n2, g1, g2)` (lines 53-57); the graphs are not used. -/
def IBDDistanceCost.NodeSubstitutionCost (c : IBDDistanceCost) (n1 n2 : GNode) :
    Except Error Double :=
  match c.node_rel_costs_.get (to_size_t n1.attr) (to_size_t n2.attr) with
  | Except.error e => Except.error e
  | Except.ok x => Except.ok (Double.mul c._alpha x)

/-- `NodeDeletionCost(n1, g1)` (lines 58-61). -/
def IBDDistanceCost.NodeDeletionCost (c : IBDDistanceCost) (_n1 : GNode) : Double :=
  c._alpha

/-- `NodeInsertionCost(n2, g2)` (lines 62-65). -/
def IBDDistanceCost.NodeInsertionCost (c : IBDDistanceCost) (_n2 : GNode) : Double :=
  c._alpha

/-- `SubstitutionCost(label_1, label_2)` (lines 79-82); the labels are `int` values. -/
def IBDDistanceCost.SubstitutionCost (c : IBDDistanceCost) (label_1 label_2 : Int) :
    Except Error Double :=
  match c.node_rel_costs_.get (to_size_t label_1) (to_size_t label_2) with
  | Except.error e => Except.error e
  | Except.ok x => Except.ok (Double.mul c._alpha x)

/-- Modelled from the spec: an edge `GEdge<double>` of the graph library, whose header is not
among the sources.  The cost model is queried with "an edge's real-valued attribute", the
only part of the edge that the code reads. -/
structure GEdge where
  attr : Double

/-- `EdgeSubstitutionCost(e1, e2, g1, g2)` (lines 66-70); the graphs are not used.  The code
reads `alpha_`, which is not the member `_alpha` that the constructor sets and is declared
nowhere in the file: it has to come from the base class `EditDistanceCost`, whose header is
not among the sources, and is a parameter here. -/
def IBDDistanceCost.EdgeSubstitutionCost (_c : IBDDistanceCost) (alpha_ : Double)
    (e1 e2 : GEdge) : Double :=
  Double.mul (Double.sub (Double.val 1) alpha_) (Double.abs (Double.sub e1.attr e2.attr))

/-- `EdgeDeletionCost(e1, g1)` (lines 71-74). -/
def IBDDistanceCost.EdgeDeletionCost (c : IBDDistanceCost) (_e1 : GEdge) : Double :=
  Double.sub (Double.val 1) c._alpha

/-- `EdgeInsertionCost(e2, g2)` (lines 75-78). -/
def IBDDistanceCost.EdgeInsertionCost (c : IBDDistanceCost) (_e2 : GEdge) : Double :=
  Double.sub (Double.val 1) c._alpha

/-- The smallest value of an `int` of 32 bits. -/
def int_min : Int := - 2 ^ 31

/-- The largest value of an `int` of 32 bits. -/
def int_max : Int := 2 ^ 31 - 1

/-- `EdgeSubstitutionCost(label_1, label_2)` (lines 83-86), the overload on `int` values,
which are within the range of `int`: the difference and its absolute value are computed in
`int`, where an overflow has no defined outcome, and the result is converted to `double`.
As the other overload it reads `alpha_`, a parameter here. -/
def IBDDistanceCost.EdgeSubstitutionCost_int (_c : IBDDistanceCost) (alpha_ : Double)
    (label_1 label_2 : Int) : Except Error Double :=
  if label_1 - label_2 < int_min ∨ int_max < label_1 - label_2 then
    Except.error Error.undefined_behaviour
  else if label_1 - label_2 = int_min then Except.error Error.undefined_behaviour
  else Except.ok (Double.mul (Double.sub (Double.val 1) alpha_)
    (Double.val ((|label_1 - label_2| : Int) : ℚ)))

/-- The implicit conversion of a `double` argument to an `int` parameter: the fraction is
dropped; outside the range of `int` the conversion has no defined outcome. -/
def double_to_int : Double → Except Error Int
  | Double.val q =>
    if int_min ≤ (if 0 ≤ q then ⌊q⌋ else ⌈q⌉) ∧ (if 0 ≤ q then ⌊q⌋ else ⌈q⌉) ≤ int_max then
      Except.ok (if 0 ≤ q then ⌊q⌋ else ⌈q⌉)
    else Except.error Error.undefined_behaviour
  | _ => Except.error Error.undefined_behaviour

/-- The call `EdgeSubstitutionCost(w1, w2)` with two `double` arguments: it selects the
overload on `int` values, to which the arguments are converted. -/
def IBDDistanceCost.EdgeSubstitutionCost_call (c : IBDDistanceCost) (alpha_ : Double)
    (w1 w2 : Double) : Except Error Double :=
  match double_to_int w1 with
  | Except.error e => Except.error e
  | Except.ok label_1 =>
    match double_to_int w2 with
    | Except.error e => Except.error e
    | Except.ok label_2 => c.EdgeSubstitutionCost_int alpha_ label_1 label_2

/-! The rounding of binary64

In the definitions above a `double` holds the exact result of every operation.  The
definitions of this section are the same code with the rounding of the binary64 format: the
value that `std::stod` returns and the result of every division and multiplication are
rounded to the nearest value of the format. -/

/-- A table as the constructor reads it: the identifiers of the header labels, in column
order, and for each data row its identifier and its values. -/
structure Table where
  otus : List Nat
  rows : List (Nat × List ℚ)

/-- The largest identifier of the header, `0` for an empty header. -/
def Table.max_otu (t : Table) : Nat := t.otus.foldl Nat.max 0

/-- The constructor parses the data line `row` as `r`: the line tokenizes on `','` into a
label whose identifier is read as `r.1` and fields that `std::stod` reads, in order, as the
values `r.2`. -/
def row_parses (row : List Char) (r : Nat × List ℚ) : Prop :=
  ∃ label fields, tokenizeB row ',' [] = Except.ok (label :: fields) ∧
    read_otu label = Except.ok r.1 ∧
    List.Forall₂ (fun field v => stod field = Except.ok (Double.val v)) fields r.2

/-- The constructor parses the lines `csv_file` as the table `t`: the first line tokenizes on
`','` into labels whose identifiers are read as `t.otus`, and the following lines are parsed
as the rows `t.rows`. -/
def Table.parses (t : Table) (csv_file : List (List Char)) : Prop :=
  ∃ header data labels, csv_file = header :: data ∧
    tokenizeB header ',' [] = Except.ok labels ∧
    List.Forall₂ (fun label otu => read_otu label = Except.ok otu) labels t.otus ∧
    List.Forall₂ row_parses data t.rows

/-- The text `label` is a label `<tag>_<id>` of the identifier `otu`: a non-empty tag without
`'_'`, `','` and quote, the character `'_'`, and a non-empty string of decimal digits whose
value `otu` fits `unsigned long`. -/
def is_label (label : List Char) (otu : Nat) : Prop :=
  ∃ tag ds, label = tag ++ '_' :: ds ∧ tag ≠ [] ∧
    (∀ c ∈ tag, c ≠ '_' ∧ c ≠ ',' ∧ c ≠ '\'') ∧
    ds ≠ [] ∧ (∀ c ∈ ds, c.isDigit = true) ∧ digits_value ds = otu ∧ otu < 2 ^ 64

/-- The text `field` is a value field of the real number `v`: it has no `','` and no quote,
and `std::stod` reads it as `v`. -/
def is_value (field : List Char) (v : ℚ) : Prop :=
  ',' ∉ field ∧ '\'' ∉ field ∧ stod field = Except.ok (Double.val v)

/-- The data line `row` reads as `r`: it is a label of the identifier `r.1` and value fields
of the values `r.2`, in order, separated by `','`. -/
def row_reads (row : List Char) (r : Nat × List ℚ) : Prop :=
  ∃ label fields, row = [','].intercalate (label :: fields) ∧ is_label label r.1 ∧
    List.Forall₂ is_value fields r.2

/-- The lines `csv_file` read as the table `t`: the first line is made of labels of the
identifiers `t.otus`, in order, separated by `','`, and the following lines read as the rows
`t.rows`. -/
def Table.reads (t : Table) (csv_file : List (List Char)) : Prop :=
  ∃ labels data, csv_file = [','].intercalate labels :: data ∧
    List.Forall₂ is_label labels t.otus ∧ List.Forall₂ row_reads data t.rows

/-- The cells after the assignments of one data row, from `cell`: the list holds, in order,
the column and the value of each assignment to the row `row`. -/
def write_cells (cell : Nat → Nat → Double) (row : Nat) :
    List (Nat × ℚ) → Nat → Nat → Double
  | [] => cell
  | (col, v) :: rest =>
    write_cells (fun i j => if i = row ∧ j = col then Double.val v else cell i j) row rest

/-- The cells after the assignments of the data rows `rows`, in order, from `cell`. -/
def write_rows (otus : List Nat) (cell : Nat → Nat → Double) (rows : List (Nat × List ℚ)) :
    Nat → Nat → Double :=
  rows.foldl (fun c r => write_cells c r.1 (otus.zip r.2)) cell

/-- The cells of the matrix that the table fills, before it is normalized. -/
def Table.raw_cells (t : Table) : Nat → Nat → Double :=
  write_rows t.otus (fun _ _ => Double.val 0) t.rows

/-- The table of the end-to-end example. -/
def example_table : List (List Char) :=
  ["id_1,id_2,id_3".toList, "id_1,0,2,4".toList, "id_2,2,0,6".toList, "id_3,4,6,0".toList]

/-- The table that the lines of the end-to-end example read as. -/
def example_parsed : Table :=
  { otus := [1, 2, 3], rows := [(1, [0, 2, 4]), (2, [2, 0, 6]), (3, [4, 6, 0])] }

/-- A well-formed table: the size `max_otu + 1` of the matrix fits `std::size_t`, every row
identifier is within the bound of the header, and no row has more values than the header
has columns. -/
def Table.well_formed (t : Table) : Prop :=
  t.max_otu + 1 < 2 ^ 64 ∧ ∀ r ∈ t.rows, r.1 ≤ t.max_otu ∧ r.2.length ≤ t.otus.length

/-- A valid table: the size `max_otu + 1` of the matrix fits `std::size_t`, every row
identifier is within the bound of the header, every row has one non-negative value per
column of the header, and not all values are zero. -/
def Table.valid (t : Table) : Prop :=
  t.max_otu + 1 < 2 ^ 64 ∧
    (∀ r ∈ t.rows, r.1 ≤ t.max_otu ∧ r.2.length = t.otus.length ∧ ∀ v ∈ r.2, 0 ≤ v) ∧
    ∃ r ∈ t.rows, ∃ v ∈ r.2, v ≠ 0

/-- A table whose header names the same identifier twice. -/
def duplicate_table : List (List Char) := ["id_1,id_1".toList, "id_1,5,0".toList]

/-- The table that the lines of `duplicate_table` read as. -/
def duplicate_parsed : Table := { otus := [1, 1], rows := [(1, [5, 0])] }

/-- A table whose only value is zero. -/
def zero_table : List (List Char) := ["id_1".toList, "id_1,0".toList]

/-- The table that the lines of `zero_table` read as. -/
def zero_parsed : Table := { otus := [1], rows := [(1, [0])] }

/-- A table without data rows. -/
def header_table : List (List Char) := ["id_1".toList]

/-- The table that the lines of `header_table` read as. -/
def header_parsed : Table := { otus := [1], rows := [] }

/-- A table whose data row has an identifier that the header does not name. -/
def stray_table : List (List Char) := ["id_1,id_3".toList, "id_2,5,6".toList]

/-- The table that the lines of `stray_table` read as. -/
def stray_parsed : Table := { otus := [1, 3], rows := [(2, [5, 6])] }

/-- The table that the lines of `small_table` read as. -/
def small_parsed : Table := { otus := [1], rows := [(1, [2])] }

/-- The position `i` of the line holds a separator outside the quoted regions: the character
is `sep` and an even number of quotes precedes it. -/
def outside_separator (sep : Char) (line : List Char) (i : Nat) : Bool :=
  decide (line.get? i = some sep) && decide ((line.take i).count '\'' % 2 = 0)

/-- The line without its separators outside the quoted regions. -/
def remove_outside_separators (sep : Char) (line : List Char) : List Char :=
  (List.range line.length).filterMap
    (fun i => if outside_separator sep line i then none else line.get? i)

/-- The string made of the gaps and the fields in turn: a gap, a field, a gap, ..., a field,
a gap. -/
def interleave : List (List Char) → List (List Char) → List Char
  | g :: gaps, f :: fields => g ++ f ++ interleave gaps fields
  | g :: _, [] => g
  | [], _ => []

/-- The fields lie in the line one after the other, in order, with nothing but separators
before, between and after them. -/
def fields_in_order (sep : Char) (line : List Char) (fields : List (List Char)) : Prop :=
  ∃ gaps : List (List Char), gaps.length = fields.length + 1 ∧
    (∀ g ∈ gaps, ∀ c ∈ g, c = sep) ∧ line = interleave gaps fields

/-- The remaining characters `rest` without their separators outside the quoted regions,
when the scan is outside (`outside = true`) or inside a quoted region at their start. -/
def strip (sep : Char) : List Char → Bool → List Char
  | [], _ => []
  | c :: rest, outside =>
    if c = '\'' then c :: strip sep rest (!outside)
    else if outside = true ∧ c = sep then strip sep rest outside
    else c :: strip sep rest outside

/-! The loop of `tokenizeB` and `scan` -/

theorem string_at_append_length (pre : List Char) (c : Char) (r : List Char) :
    string_at (pre ++ c :: r) pre.length = Except.ok c := by
  have h : (pre ++ c :: r).get? pre.length = some c := by
    rw [List.get?_eq_getElem?, List.getElem?_append_right (le_refl _)]
    simp
  simp only [string_at, h]

theorem string_at_append_succ (pre : List Char) (c c1 : Char) (r : List Char) :
    string_at (pre ++ c :: c1 :: r) (pre.length + 1) = Except.ok c1 := by
  have h := string_at_append_length (pre ++ [c]) c1 r
  simpa using h

theorem string_substr_word (pre rest : List Char) (pws wl : Nat) (h : pws + wl = pre.length) :
    string_substr (pre ++ rest) pws wl = Except.ok (pre.drop pws) := by
  have h1 : pws ≤ (pre ++ rest).length := by simp; omega
  have h2 : pws ≤ pre.length := by omega
  have h3 : (pre.drop pws).length = wl := by simp; omega
  simp only [string_substr, h1, if_true]
  rw [List.drop_append_of_le_length h2, List.take_append_of_le_length (by omega), ← h3,
    List.take_length]

theorem drop_ne_nil_iff (pre : List Char) (pws wl : Nat) (h : pws + wl = pre.length) :
    pre.drop pws ≠ [] ↔ wl > 0 := by
  rw [Ne, ← List.length_eq_zero, List.length_drop]
  omega

theorem drop_append_singleton (pre : List Char) (c : Char) (pws wl : Nat)
    (h : pws + wl = pre.length) : (pre ++ [c]).drop pws = pre.drop pws ++ [c] := by
  rw [List.drop_append_of_le_length (by omega)]

/-- The loop of `tokenizeB` from index `pre.length` on, followed by the code after the loop,
computes `scan` on the characters not yet visited. -/
theorem loop_eq_scan (sep : Char) (rest pre : List Char) (st : TokenizeState)
    (h : st.pos_word_start + st.word_length = pre.length) :
    (match (List.range' pre.length rest.length).foldlM (tokenizeB_body (pre ++ rest) sep) st with
      | Except.error e => Except.error e
      | Except.ok st1 => tokenizeB_finish (pre ++ rest) st1)
    = scan sep rest st.outside_quotes (pre.drop st.pos_word_start) st.words := by
  induction rest generalizing pre st with
  | nil =>
    have hd := drop_ne_nil_iff pre _ _ h
    have hs := string_substr_word pre [] _ _ h
    simp only [List.append_nil] at hs
    cases ho : st.outside_quotes <;>
      by_cases hw : st.word_length > 0 <;>
      simp [List.foldlM, tokenizeB_finish, scan, ho, hw, hs, hd, pure, Except.pure]
  | cons c r ih =>
    have hcons : pre ++ c :: r = (pre ++ [c]) ++ r := by simp
    have hlen : (pre ++ [c]).length = pre.length + 1 := by simp
    have hat := string_at_append_length pre c r
    have hd := drop_ne_nil_iff pre _ _ h
    have hs := string_substr_word pre (c :: r) _ _ h
    have hdrop := drop_append_singleton pre c _ _ h
    simp only [List.length_cons, List.range'_succ, List.foldlM_cons]
    by_cases hq : c = '\''
    · -- a quote character
      subst hq
      by_cases hbad : st.outside_quotes = false ∧ r ≠ [] ∧ r.head? ≠ some sep
      · obtain ⟨ho, hr, hh⟩ := hbad
        obtain ⟨c1, r1, rfl⟩ := List.exists_cons_of_ne_nil hr
        have hat1 := string_at_append_succ pre '\'' c1 r1
        have hc1 : c1 ≠ sep := by simpa using hh
        simp only [tokenizeB_body, hat, hat1]
        simp [ho, hc1, scan, bind, Except.bind]
      · have hstep : tokenizeB_body (pre ++ '\'' :: r) sep st pre.length =
            Except.ok { st with word_length := st.word_length + 1,
                                outside_quotes := !st.outside_quotes } := by
          cases ho : st.outside_quotes
          · cases r with
            | nil => simp [tokenizeB_body, hat, ho]
            | cons c1 r1 =>
              have hat1 := string_at_append_succ pre '\'' c1 r1
              have hc1 : c1 = sep := by simpa [ho] using hbad
              simp only [tokenizeB_body, hat, hat1]
              simp [ho, hc1]
          · simp [tokenizeB_body, hat, ho]
        have hi := ih (pre ++ ['\''])
          { st with word_length := st.word_length + 1, outside_quotes := !st.outside_quotes }
          (by simp only [hlen]; omega)
        simp only [hlen, ← hcons, hdrop] at hi
        rw [hstep]
        simp only [bind, Except.bind]
        rw [hi]
        simp [scan, hbad]
    · by_cases hsep : st.outside_quotes = true ∧ c = sep
      · -- a separator outside quotes
        obtain ⟨ho, hc⟩ := hsep
        have hqs : ¬ sep = '\'' := fun e => hq (hc.trans e)
        by_cases hw : st.word_length > 0
        · have hstep : tokenizeB_body (pre ++ c :: r) sep st pre.length =
              Except.ok { st with words := st.words ++ [pre.drop st.pos_word_start],
                                  pos_word_start := pre.length + 1, word_length := 0 } := by
            simp only [tokenizeB_body, hat, hs]
            simp [hq, hqs, ho, hc, hw]
          have hi := ih (pre ++ [c])
            { st with words := st.words ++ [pre.drop st.pos_word_start],
                      pos_word_start := pre.length + 1, word_length := 0 }
            (by simp)
          simp only [hlen, ← hcons] at hi
          rw [hstep]
          simp only [bind, Except.bind]
          rw [hi]
          have hne : pre.drop st.pos_word_start ≠ [] := hd.mpr hw
          have hnil : List.drop (pre.length + 1) (pre ++ [c]) = [] := by simp
          simp [scan, hq, hqs, ho, hc, hne, hnil]
        · have hstep : tokenizeB_body (pre ++ c :: r) sep st pre.length =
              Except.ok { st with pos_word_start := pre.length + 1, word_length := 0 } := by
            simp only [tokenizeB_body, hat]
            simp [hq, hqs, ho, hc, hw]
          have hi := ih (pre ++ [c])
            { st with pos_word_start := pre.length + 1, word_length := 0 }
            (by simp)
          simp only [hlen, ← hcons] at hi
          rw [hstep]
          simp only [bind, Except.bind]
          rw [hi]
          have hnil0 : pre.drop st.pos_word_start = [] := by
            by_contra hne
            exact hw (hd.mp hne)
          have hnil : List.drop (pre.length + 1) (pre ++ [c]) = [] := by simp
          simp [scan, hq, hqs, ho, hc, hnil0, hnil]
      · -- any other character
        have hstep : tokenizeB_body (pre ++ c :: r) sep st pre.length =
            Except.ok { st with word_length := st.word_length + 1 } := by
          have : (st.outside_quotes && decide (c = sep)) = false := by
            cases ho : st.outside_quotes <;> simp_all
          simp only [tokenizeB_body, hat]
          simp [hq, this]
        have hi := ih (pre ++ [c]) { st with word_length := st.word_length + 1 }
          (by simp only [hlen]; omega)
        simp only [hlen, ← hcons, hdrop] at hi
        rw [hstep]
        simp only [bind, Except.bind]
        rw [hi]
        simp [scan, hq, hsep]

/-- `tokenizeB` computes `scan` from the start of the line. -/
theorem tokenizeB_eq_scan (sentence : List Char) (sep : Char) (words : List (List Char)) :
    tokenizeB sentence sep words = scan sep sentence true [] words := by
  have h := loop_eq_scan sep sentence []
    { outside_quotes := true, word_length := 0, pos_word_start := 0, words := words } rfl
  simpa [tokenizeB, List.range_eq_range'] using h

/-! Properties of `scan` -/

theorem scan_nil (sep : Char) (outside : Bool) (cur : List Char) (words : List (List Char)) :
    scan sep [] outside cur words =
      if !outside then Except.error Error.unbalanced_quotes
      else if cur ≠ [] then Except.ok (words ++ [cur]) else Except.ok words := by
  simp [scan]

theorem scan_cons (sep c : Char) (rest : List Char) (outside : Bool) (cur : List Char)
    (words : List (List Char)) :
    scan sep (c :: rest) outside cur words =
      if c = '\'' then
        if outside = false ∧ rest ≠ [] ∧ rest.head? ≠ some sep then
          Except.error Error.closing_quote
        else scan sep rest (!outside) (cur ++ [c]) words
      else if outside = true ∧ c = sep then
        scan sep rest outside [] (if cur ≠ [] then words ++ [cur] else words)
      else scan sep rest outside (cur ++ [c]) words := by
  simp [scan]

/-- The words already in the output vector are carried through unchanged. -/
theorem scan_words (sep : Char) (l : List Char) (outside : Bool) (cur : List Char)
    (words : List (List Char)) :
    scan sep l outside cur words =
      Except.map (fun fs => words ++ fs) (scan sep l outside cur []) := by
  induction l generalizing outside cur words with
  | nil =>
    rw [scan_nil, scan_nil]
    cases outside <;> by_cases hc : cur = [] <;> simp [Except.map, hc]
  | cons c r ih =>
    rw [scan_cons, scan_cons]
    by_cases hq : c = '\''
    · by_cases hbad : outside = false ∧ r ≠ [] ∧ r.head? ≠ some sep
      · simp [hq, hbad, Except.map]
      · simp only [hq, hbad, if_true, if_false]
        exact ih _ _ _
    · by_cases hsep : outside = true ∧ c = sep
      · rw [if_neg hq, if_neg hq, if_pos hsep, if_pos hsep]
        rw [ih outside [] (if cur ≠ [] then words ++ [cur] else words),
          ih outside [] (if cur ≠ [] then [] ++ [cur] else [])]
        by_cases hc : cur = [] <;>
          cases scan sep r outside [] [] <;> simp [Except.map, hc]
      · rw [if_neg hq, if_neg hq, if_neg hsep, if_neg hsep]
        exact ih _ _ _

/-- A line without quote characters: `scan` splits at every separator and keeps the
non-empty pieces. -/
theorem scan_no_quote (sep : Char) (l : List Char) (h : '\'' ∉ l) (cur : List Char)
    (words : List (List Char)) :
    scan sep l true cur words =
      Except.ok (words ++
        (((l.splitOn sep).modifyHead (fun w => cur ++ w)).filter (fun w => !w.isEmpty))) := by
  induction l generalizing cur words with
  | nil =>
    rw [scan_nil]
    by_cases hc : cur = []
    · simp [hc, List.modifyHead]
    · have : cur.isEmpty = false := by simpa [List.isEmpty_iff] using hc
      simp [hc, List.modifyHead, List.filter, this]
  | cons c r ih =>
    have hq : c ≠ '\'' := fun e => h (by simp [e])
    have hr : '\'' ∉ r := fun e => h (by simp [e])
    obtain ⟨hd, tl, hspl⟩ : ∃ hd tl, r.splitOn sep = hd :: tl := by
      cases hsp : r.splitOn sep with
      | nil => exact absurd hsp (List.splitOnP_ne_nil _ _)
      | cons a b => exact ⟨a, b, rfl⟩
    rw [scan_cons, if_neg hq]
    by_cases hsep : c = sep
    · have hs : (c :: r).splitOn sep = [] :: r.splitOn sep := by
        simp [List.splitOn, List.splitOnP_cons, hsep]
      rw [if_pos ⟨rfl, hsep⟩, ih hr, hs, hspl]
      by_cases hc : cur = []
      · simp [hc, List.modifyHead, List.filter]
      · have : cur.isEmpty = false := by simpa [List.isEmpty_iff] using hc
        simp [hc, List.modifyHead, List.filter, this]
    · have hs : (c :: r).splitOn sep = (r.splitOn sep).modifyHead (List.cons c) := by
        simp [List.splitOn, List.splitOnP_cons, hsep]
      rw [if_neg (fun e => hsep e.2), ih hr, hs, hspl]
      simp [List.modifyHead]

/-- Every field that `scan` adds to the output is non-empty. -/
theorem scan_fields_ne_nil (sep : Char) (l : List Char) (outside : Bool) (cur : List Char)
    (words out : List (List Char)) (h : scan sep l outside cur words = Except.ok out) :
    ∃ fs, out = words ++ fs ∧ ∀ f ∈ fs, f ≠ [] := by
  induction l generalizing outside cur words with
  | nil =>
    rw [scan_nil] at h
    cases outside
    · simp at h
    · by_cases hc : cur = []
      · simp [hc] at h
        exact ⟨[], by simp [h], by simp⟩
      · simp [hc] at h
        exact ⟨[cur], h.symm, by simpa using hc⟩
  | cons c r ih =>
    rw [scan_cons] at h
    by_cases hq : c = '\''
    · by_cases hbad : outside = false ∧ r ≠ [] ∧ r.head? ≠ some sep
      · rw [if_pos hq, if_pos hbad] at h
        cases h
      · rw [if_pos hq, if_neg hbad] at h
        exact ih _ _ _ h
    · by_cases hsep : outside = true ∧ c = sep
      · rw [if_neg hq, if_pos hsep] at h
        obtain ⟨fs, hfs, hne⟩ := ih _ _ _ h
        by_cases hc : cur = []
        · rw [if_neg (not_not.mpr hc)] at hfs
          exact ⟨fs, hfs, hne⟩
        · rw [if_pos hc] at hfs
          refine ⟨cur :: fs, by simpa using hfs, ?_⟩
          intro f hf
          rcases List.mem_cons.mp hf with rfl | hf
          · exact hc
          · exact hne f hf
      · rw [if_neg hq, if_neg hsep] at h
        exact ih _ _ _ h

/-- The only errors of `scan` are the two errors `tokenizeB` throws itself. -/
theorem scan_error_kind (sep : Char) (l : List Char) (outside : Bool) (cur : List Char)
    (words : List (List Char)) (e : Error) (h : scan sep l outside cur words = Except.error e) :
    e = Error.closing_quote ∨ e = Error.unbalanced_quotes := by
  induction l generalizing outside cur words with
  | nil =>
    rw [scan_nil] at h
    cases outside
    · simp at h
      exact Or.inr h.symm
    · by_cases hc : cur = [] <;> simp [hc] at h
  | cons c r ih =>
    rw [scan_cons] at h
    by_cases hq : c = '\''
    · by_cases hbad : outside = false ∧ r ≠ [] ∧ r.head? ≠ some sep
      · rw [if_pos hq, if_pos hbad] at h
        cases h
        exact Or.inl rfl
      · rw [if_pos hq, if_neg hbad] at h
        exact ih _ _ _ h
    · by_cases hsep : outside = true ∧ c = sep
      · rw [if_neg hq, if_pos hsep] at h
        exact ih _ _ _ h
      · rw [if_neg hq, if_neg hsep] at h
        exact ih _ _ _ h

/-- When `scan` succeeds, the quotes of the remaining characters close the open region. -/
theorem scan_ok_parity (sep : Char) (l : List Char) (outside : Bool) (cur : List Char)
    (words out : List (List Char)) (h : scan sep l outside cur words = Except.ok out) :
    l.count '\'' % 2 = if outside then 0 else 1 := by
  induction l generalizing outside cur words with
  | nil =>
    rw [scan_nil] at h
    cases outside
    · simp at h
    · simp
  | cons c r ih =>
    rw [scan_cons] at h
    by_cases hq : c = '\''
    · by_cases hbad : outside = false ∧ r ≠ [] ∧ r.head? ≠ some sep
      · rw [if_pos hq, if_pos hbad] at h
        cases h
      · rw [if_pos hq, if_neg hbad] at h
        have := ih _ _ _ h
        subst hq
        rw [List.count_cons_self]
        cases outside <;> simp at this ⊢ <;> omega
    · have hc : List.count '\'' (c :: r) = List.count '\'' r := by
        rw [List.count_cons_of_ne (fun e => hq e.symm)]
      by_cases hsep : outside = true ∧ c = sep
      · rw [if_neg hq, if_pos hsep] at h
        rw [hc]
        exact ih _ _ _ h
      · rw [if_neg hq, if_neg hsep] at h
        rw [hc]
        exact ih _ _ _ h

/-- The closing-quote error is raised exactly when a quote that closes a quoted region is
followed by a character other than the separator. -/
theorem scan_closing_quote_iff (sep : Char) (l : List Char) (outside : Bool) (cur : List Char)
    (words : List (List Char)) :
    scan sep l outside cur words = Except.error Error.closing_quote ↔
      ∃ pre c post, l = pre ++ '\'' :: c :: post ∧
        pre.count '\'' % 2 = (if outside then 1 else 0) ∧ c ≠ sep := by
  induction l generalizing outside cur words with
  | nil =>
    rw [scan_nil]
    constructor
    · intro h
      cases outside
      · simp at h
      · by_cases hc : cur = [] <;> simp [hc] at h
    · rintro ⟨pre, c, post, h, -⟩
      simp at h
  | cons x r ih =>
    rw [scan_cons]
    by_cases hq : x = '\''
    · subst hq
      by_cases hbad : outside = false ∧ r ≠ [] ∧ r.head? ≠ some sep
      · rw [if_pos rfl, if_pos hbad]
        obtain ⟨ho, hr, hh⟩ := hbad
        obtain ⟨c1, r1, rfl⟩ := List.exists_cons_of_ne_nil hr
        refine ⟨fun _ => ⟨[], c1, r1, rfl, by simp [ho], by simpa using hh⟩, fun _ => rfl⟩
      · rw [if_pos rfl, if_neg hbad, ih]
        constructor
        · rintro ⟨pre, c, post, rfl, hp, hc⟩
          refine ⟨'\'' :: pre, c, post, rfl, ?_, hc⟩
          rw [List.count_cons_self]
          cases outside <;> simp at hp ⊢ <;> omega
        · rintro ⟨pre, c, post, hl, hp, hc⟩
          cases pre with
          | nil =>
            exfalso
            simp only [List.nil_append, List.cons.injEq, true_and] at hl
            subst hl
            apply hbad
            cases outside
            · exact ⟨rfl, by simp, by simpa using hc⟩
            · simp at hp
          | cons y pre =>
            simp only [List.cons_append, List.cons.injEq] at hl
            obtain ⟨rfl, rfl⟩ := hl
            refine ⟨pre, c, post, rfl, ?_, hc⟩
            rw [List.count_cons_self] at hp
            cases outside <;> simp at hp ⊢ <;> omega
    · have hstep : ∀ cur1 words1,
          (scan sep r outside cur1 words1 = Except.error Error.closing_quote ↔
            ∃ pre c post, x :: r = pre ++ '\'' :: c :: post ∧
              pre.count '\'' % 2 = (if outside then 1 else 0) ∧ c ≠ sep) := by
        intro cur1 words1
        rw [ih]
        constructor
        · rintro ⟨pre, c, post, rfl, hp, hc⟩
          refine ⟨x :: pre, c, post, rfl, ?_, hc⟩
          rw [List.count_cons_of_ne (fun e => hq e.symm)]
          exact hp
        · rintro ⟨pre, c, post, hl, hp, hc⟩
          cases pre with
          | nil =>
            simp only [List.nil_append, List.cons.injEq] at hl
            exact absurd hl.1 hq
          | cons y pre =>
            simp only [List.cons_append, List.cons.injEq] at hl
            obtain ⟨rfl, rfl⟩ := hl
            rw [List.count_cons_of_ne (fun e => hq e.symm)] at hp
            exact ⟨pre, c, post, rfl, hp, hc⟩
      by_cases hsep : outside = true ∧ x = sep
      · rw [if_neg hq, if_pos hsep]
        exact hstep _ _
      · rw [if_neg hq, if_neg hsep]
        exact hstep _ _

/-- Inside a quoted region, characters other than the quote are added to the current word. -/
theorem scan_inside (sep : Char) (w : List Char) (hw : '\'' ∉ w) (rest cur : List Char)
    (words : List (List Char)) :
    scan sep (w ++ rest) false cur words = scan sep rest false (cur ++ w) words := by
  induction w generalizing cur with
  | nil => simp
  | cons c r ih =>
    have hq : c ≠ '\'' := fun e => hw (by simp [e])
    have hr : '\'' ∉ r := fun e => hw (by simp [e])
    rw [List.cons_append, scan_cons, if_neg hq, if_neg (by simp), ih hr]
    simp

/-- A line made of separators only yields no field. -/
theorem scan_replicate (sep : Char) (hsep : sep ≠ '\'') (n : Nat) (words : List (List Char)) :
    scan sep (List.replicate n sep) true [] words = Except.ok words := by
  induction n with
  | zero => simp [scan_nil]
  | succ n ih =>
    rw [List.replicate_succ, scan_cons, if_neg hsep, if_pos ⟨rfl, rfl⟩]
    simpa using ih

/-- One more separator at the end of a line changes nothing. -/
theorem scan_trailing_sep (sep : Char) (hsep : sep ≠ '\'') (l : List Char) (outside : Bool)
    (cur : List Char) (words out : List (List Char))
    (h : scan sep l outside cur words = Except.ok out) :
    scan sep (l ++ [sep]) outside cur words = Except.ok out := by
  induction l generalizing outside cur words with
  | nil =>
    rw [scan_nil] at h
    cases outside
    · simp at h
    · rw [List.nil_append, scan_cons, if_neg hsep, if_pos ⟨rfl, rfl⟩, scan_nil]
      by_cases hc : cur = [] <;> simpa [hc] using h
  | cons c r ih =>
    rw [scan_cons] at h
    rw [List.cons_append, scan_cons]
    by_cases hq : c = '\''
    · by_cases hbad : outside = false ∧ r ≠ [] ∧ r.head? ≠ some sep
      · rw [if_pos hq, if_pos hbad] at h
        cases h
      · rw [if_pos hq, if_neg hbad] at h
        have hbad1 : ¬ (outside = false ∧ r ++ [sep] ≠ [] ∧ (r ++ [sep]).head? ≠ some sep) := by
          rintro ⟨ho, -, hh⟩
          cases r with
          | nil => simp at hh
          | cons c1 r1 => exact hbad ⟨ho, by simp, by simpa using hh⟩
        rw [if_pos hq, if_neg hbad1]
        exact ih _ _ _ h
    · by_cases hs : outside = true ∧ c = sep
      · rw [if_neg hq, if_pos hs] at h
        rw [if_neg hq, if_pos hs]
        exact ih _ _ _ h
      · rw [if_neg hq, if_neg hs] at h
        rw [if_neg hq, if_neg hs]
        exact ih _ _ _ h

/-! The constructor on lines that read as a table -/

theorem vector_at_append_length {T : Type} (pre : List T) (x : T) (rest : List T) :
    vector_at (pre ++ x :: rest) pre.length = Except.ok x := by
  have h : (pre ++ x :: rest).get? pre.length = some x := by
    rw [List.get?_eq_getElem?, List.getElem?_append_right (le_refl _)]
    simp
  simp only [vector_at, h]

/-- The loop over the header labels collects the identifiers and their maximum. -/
theorem header_loop (labels : List (List Char)) (otus : List Nat)
    (h : List.Forall₂ (fun label otu => read_otu label = Except.ok otu) labels otus)
    (acc : List Nat) (mx : Nat) :
    labels.foldlM header_body (acc, mx) = Except.ok (acc ++ otus, otus.foldl Nat.max mx) := by
  induction h generalizing acc mx with
  | nil => simp [pure, Except.pure]
  | cons hlo _ ih =>
    rw [List.foldlM_cons]
    simp only [header_body, hlo, bind, Except.bind]
    rw [ih]
    simp

/-- The loop over the value fields of a data row performs the assignments of the row. -/
theorem row_loop (otus_ : List Nat) (label : List Char) (otu_1 n : Nat) (h1 : otu_1 < n)
    (fs : List (List Char)) (vs : List ℚ)
    (h : List.Forall₂ (fun field v => stod field = Except.ok (Double.val v)) fs vs) :
    ∀ (pre_f : List (List Char)) (pre_o os : List Nat) (m : DMatrix),
      otus_ = pre_o ++ os → pre_f.length = pre_o.length → fs.length ≤ os.length →
      (∀ o ∈ os, o < n) → m.num_rows = n → m.num_cols = n →
      (List.range' (pre_f.length + 1) fs.length).foldlM
          (row_body otus_ (label :: (pre_f ++ fs)) otu_1) m =
        Except.ok { m with cell := write_cells m.cell otu_1 (os.zip vs) } := by
  induction h with
  | nil =>
    intro pre_f pre_o os m _ _ _ _ _ _
    simp [write_cells, pure, Except.pure]
  | @cons f v fs1 vs1 hfv _ ih =>
    intro pre_f pre_o os m hotus hlen hle hos hrows hcols
    cases os with
    | nil => simp at hle
    | cons o os1 =>
      have hat1 : vector_at otus_ (pre_f.length + 1 - 1) = Except.ok o := by
        rw [hotus, Nat.add_sub_cancel, hlen]
        exact vector_at_append_length pre_o o os1
      have hat2 : vector_at (label :: (pre_f ++ f :: fs1)) (pre_f.length + 1) = Except.ok f := by
        have := vector_at_append_length (label :: pre_f) f fs1
        simpa using this
      have hset : m.set otu_1 o (Double.val v) =
          Except.ok { m with cell := fun i j =>
            if i = otu_1 ∧ j = o then Double.val v else m.cell i j } := by
        have ho : o < n := hos o (by simp)
        simp [DMatrix.set, hrows, hcols, h1, ho]
      have hi := ih (pre_f ++ [f]) (pre_o ++ [o]) os1
        { m with cell := fun i j => if i = otu_1 ∧ j = o then Double.val v else m.cell i j }
        (by simp [hotus]) (by simp [hlen]) (by simpa using hle)
        (fun x hx => hos x (by simp [hx])) hrows hcols
      simp only [List.length_append, List.length_singleton, List.append_assoc,
        List.singleton_append] at hi
      rw [List.length_cons, List.range'_succ, List.foldlM_cons]
      simp only [row_body, hat1, hat2, hfv, hset, bind, Except.bind]
      rw [hi]
      rfl

/-- One data row that reads as `r` performs the assignments of `r`. -/
theorem rows_body_parses (otus_ : List Nat) (n : Nat) (hotus : ∀ o ∈ otus_, o < n)
    (m : DMatrix) (hrows : m.num_rows = n) (hcols : m.num_cols = n)
    (row : List Char) (r : Nat × List ℚ) (hr : row_parses row r) (h1 : r.1 < n)
    (hlen : r.2.length ≤ otus_.length) :
    rows_body otus_ m row =
      Except.ok { m with cell := write_cells m.cell r.1 (otus_.zip r.2) } := by
  obtain ⟨label, fields, htok, hlab, hfields⟩ := hr
  have hl : fields.length ≤ otus_.length := by
    rw [hfields.length_eq]
    exact hlen
  have h := row_loop otus_ label r.1 n h1 fields r.2 hfields [] [] otus_ m rfl rfl hl hotus
    hrows hcols
  simp only [List.length_nil, List.nil_append, Nat.zero_add] at h
  simp only [rows_body, htok, vector_at, List.get?_cons_zero, hlab, List.length_cons,
    Nat.add_sub_cancel]
  exact h

/-- The loop over the data rows performs the assignments of all rows, in order. -/
theorem rows_loop (otus_ : List Nat) (n : Nat) (hotus : ∀ o ∈ otus_, o < n)
    (data : List (List Char)) (rows : List (Nat × List ℚ))
    (h : List.Forall₂ row_parses data rows) :
    ∀ (m : DMatrix), m.num_rows = n → m.num_cols = n →
      (∀ r ∈ rows, r.1 < n ∧ r.2.length ≤ otus_.length) →
      data.foldlM (rows_body otus_) m =
        Except.ok { m with cell := write_rows otus_ m.cell rows } := by
  induction h with
  | nil =>
    intro m _ _ _
    simp [write_rows, pure, Except.pure]
  | @cons row r data1 rows1 hr _ ih =>
    intro m hrows hcols hb
    have hb1 := hb r (by simp)
    rw [List.foldlM_cons, rows_body_parses otus_ n hotus m hrows hcols row r hr hb1.1 hb1.2]
    simp only [bind, Except.bind]
    rw [ih { m with cell := write_cells m.cell r.1 (otus_.zip r.2) } hrows hcols
      (fun x hx => hb x (by simp [hx]))]
    simp [write_rows]

theorem le_foldl_max (l : List Nat) (mx : Nat) :
    mx ≤ l.foldl Nat.max mx ∧ ∀ o ∈ l, o ≤ l.foldl Nat.max mx := by
  induction l generalizing mx with
  | nil => simp
  | cons a l ih =>
    have h1 := (ih (Nat.max mx a)).1
    have h2 := (ih (Nat.max mx a)).2
    have h3 : mx ≤ Nat.max mx a := Nat.le_max_left _ _
    have h4 : a ≤ Nat.max mx a := Nat.le_max_right _ _
    refine ⟨by simpa using le_trans h3 h1, ?_⟩
    intro o ho
    rcases List.mem_cons.mp ho with rfl | ho
    · simpa using le_trans h4 h1
    · simpa using h2 o ho

theorem le_max_otu (t : Table) (o : Nat) (h : o ∈ t.otus) : o ≤ t.max_otu :=
  (le_foldl_max t.otus 0).2 o h

/-- On lines that read as the table `t`, with the row identifiers within the bound of the
header and no more values in a row than the header has columns, the constructor fills the
matrix of size `max_otu + 1` with the cells `t.raw_cells`. -/
theorem load_of_parses (t : Table) (csv_file : List (List Char)) (hparses : t.parses csv_file)
    (hfit : t.max_otu + 1 < 2 ^ 64)
    (hb : ∀ r ∈ t.rows, r.1 ≤ t.max_otu ∧ r.2.length ≤ t.otus.length) :
    IBDDistanceCost.load csv_file =
      Except.ok (t.otus, { num_rows := t.max_otu + 1, num_cols := t.max_otu + 1,
                           cell := t.raw_cells }) := by
  obtain ⟨header, data, labels, rfl, htok, hlabels, hrows⟩ := hparses
  have hhead := header_loop labels t.otus hlabels [] 0
  have hmod : (t.max_otu + 1) % 2 ^ 64 = t.max_otu + 1 := Nat.mod_eq_of_lt hfit
  have hloop := rows_loop t.otus (t.max_otu + 1)
    (fun o ho => Nat.lt_succ_of_le (le_max_otu t o ho)) data t.rows hrows
    ((DMatrix.empty.resize (t.max_otu + 1) (t.max_otu + 1)).set_to_val (Double.val 0))
    rfl rfl (fun r hr => ⟨Nat.lt_succ_of_le (hb r hr).1, (hb r hr).2⟩)
  simp only [IBDDistanceCost.load, List.headD_cons, htok, hhead, List.nil_append,
    List.tail_cons]
  have hmax : List.foldl Nat.max 0 t.otus = t.max_otu := rfl
  simp only [hmax, hmod, hloop]
  rfl

/-! Lines in the format of the table are parsed as the table -/

theorem isDigit_ne (c d : Char) (hc : c.isDigit = true) (hd : d.isDigit = false) : c ≠ d := by
  rintro rfl
  rw [hc] at hd
  cases hd

theorem is_space_of_isDigit (c : Char) (hc : c.isDigit = true) : is_space c = false := by
  simp [is_space, isDigit_ne c ' ' hc (by decide), isDigit_ne c '\t' hc (by decide),
    isDigit_ne c '\n' hc (by decide), isDigit_ne c '\x0b' hc (by decide),
    isDigit_ne c '\x0c' hc (by decide), isDigit_ne c '\r' hc (by decide)]

theorem read_sign_of_isDigit (c : Char) (t : List Char) (hc : c.isDigit = true) :
    read_sign (c :: t) = (false, c :: t) := by
  have h1 := isDigit_ne c '-' hc (by decide)
  have h2 := isDigit_ne c '+' hc (by decide)
  unfold read_sign
  split
  · simp_all
  · simp_all
  · rfl

/-- `std::stoul` reads a string of decimal digits as its value, when the value fits. -/
theorem stoul_digits (ds : List Char) (hne : ds ≠ []) (hds : ∀ c ∈ ds, c.isDigit = true)
    (hfit : digits_value ds < 2 ^ 64) : stoul ds = Except.ok (digits_value ds) := by
  obtain ⟨c, t, rfl⟩ := List.exists_cons_of_ne_nil hne
  have hc : c.isDigit = true := hds c (by simp)
  have hsp : ¬ is_space c = true := by simp [is_space_of_isDigit c hc]
  have htake : List.takeWhile Char.isDigit (c :: t) = c :: t :=
    List.takeWhile_eq_self_iff.mpr hds
  simp only [stoul, List.dropWhile_cons_of_neg hsp, read_sign_of_isDigit c t hc, htake]
  rw [if_neg (by simp), if_neg (by omega)]
  simp

theorem intercalate_cons (sep l : List Char) (ls : List (List Char)) :
    sep.intercalate (l :: ls) = l ++ (ls.map (fun x => sep ++ x)).flatten := by
  induction ls generalizing l with
  | nil => simp [List.intercalate]
  | cons a rest ih =>
    have := ih a
    simp [List.intercalate] at this ⊢
    exact this

theorem mem_intercalate (c : Char) (sep : List Char) (ls : List (List Char))
    (h : c ∈ sep.intercalate ls) : c ∈ sep ∨ ∃ l ∈ ls, c ∈ l := by
  cases ls with
  | nil => simp [List.intercalate] at h
  | cons l rest =>
    rw [intercalate_cons] at h
    rcases List.mem_append.mp h with h | h
    · exact Or.inr ⟨l, by simp, h⟩
    · obtain ⟨x, hx, hcx⟩ := List.mem_flatten.mp h
      obtain ⟨y, hy, rfl⟩ := List.mem_map.mp hx
      rcases List.mem_append.mp hcx with h1 | h1
      · exact Or.inl h1
      · exact Or.inr ⟨y, by simp [hy], h1⟩

/-- A line of non-empty fields without `','` and quote, separated by `','`, tokenizes into
these fields. -/
theorem tokenizeB_intercalate (ls : List (List Char))
    (h : ∀ l ∈ ls, l ≠ [] ∧ ',' ∉ l ∧ '\'' ∉ l) :
    tokenizeB ([','].intercalate ls) ',' [] = Except.ok ls := by
  by_cases hls : ls = []
  · subst hls
    rfl
  · have hq : '\'' ∉ [','].intercalate ls := by
      intro hmem
      rcases mem_intercalate _ _ _ hmem with h1 | ⟨l, hl, h1⟩
      · simp at h1
      · exact (h l hl).2.2 h1
    rw [tokenizeB_eq_scan, scan_no_quote ',' _ hq,
      List.splitOn_intercalate ls ',' (fun l hl => (h l hl).2.1) hls]
    obtain ⟨l, rest, rfl⟩ := List.exists_cons_of_ne_nil hls
    have hall : ∀ x ∈ l :: rest, (!x.isEmpty) = true := by
      intro x hx
      simpa [List.isEmpty_iff] using (h x hx).1
    simp only [List.modifyHead, List.nil_append, List.filter_eq_self.mpr hall]

/-- The identifier of a label `<tag>_<id>` is read as the value of its digits. -/
theorem read_otu_of_label (label : List Char) (otu : Nat) (h : is_label label otu) :
    read_otu label = Except.ok otu := by
  obtain ⟨tag, ds, rfl, htag, htagc, hds, hdsc, rfl, hfit⟩ := h
  have hq : '\'' ∉ tag ++ '_' :: ds := by
    intro hmem
    rcases List.mem_append.mp hmem with h1 | h1
    · exact (htagc _ h1).2.2 rfl
    · rcases List.mem_cons.mp h1 with h2 | h2
      · cases h2
      · exact isDigit_ne _ '\'' (hdsc _ h2) (by decide) rfl
  have hsplit : (tag ++ '_' :: ds).splitOn '_' = [tag, ds] := by
    have h1 : ∀ x ∈ tag, ¬ (x == '_') = true := fun x hx => by simpa using (htagc x hx).1
    have h2 : ∀ x ∈ ds, ¬ (x == '_') = true := fun x hx => by
      simpa using isDigit_ne x '_' (hdsc x hx) (by decide)
    rw [List.splitOn, List.splitOnP_first _ tag h1 '_' (by simp), List.splitOnP_eq_single _ ds h2]
  have htok : tokenizeB (tag ++ '_' :: ds) '_' [] = Except.ok [tag, ds] := by
    rw [tokenizeB_eq_scan, scan_no_quote '_' _ hq, hsplit]
    have hall : ∀ x ∈ [tag, ds], (!x.isEmpty) = true := by
      intro x hx
      rcases List.mem_cons.mp hx with rfl | hx
      · simpa [List.isEmpty_iff] using htag
      · rw [List.mem_singleton] at hx
        subst hx
        simpa [List.isEmpty_iff] using hds
    simp only [List.modifyHead, List.nil_append, List.filter_eq_self.mpr hall]
  simp only [read_otu, htok, vector_at, List.get?_cons_succ, List.get?_cons_zero]
  exact stoul_digits ds hds hdsc hfit

theorem is_label_text (label : List Char) (otu : Nat) (h : is_label label otu) :
    label ≠ [] ∧ ',' ∉ label ∧ '\'' ∉ label := by
  obtain ⟨tag, ds, rfl, htag, htagc, -, hdsc, -, -⟩ := h
  refine ⟨by simp, ?_, ?_⟩
  · intro hmem
    rcases List.mem_append.mp hmem with h1 | h1
    · exact (htagc _ h1).2.1 rfl
    · rcases List.mem_cons.mp h1 with h2 | h2
      · cases h2
      · exact isDigit_ne _ ',' (hdsc _ h2) (by decide) rfl
  · intro hmem
    rcases List.mem_append.mp hmem with h1 | h1
    · exact (htagc _ h1).2.2 rfl
    · rcases List.mem_cons.mp h1 with h2 | h2
      · cases h2
      · exact isDigit_ne _ '\'' (hdsc _ h2) (by decide) rfl

theorem is_value_text (field : List Char) (v : ℚ) (h : is_value field v) :
    field ≠ [] ∧ ',' ∉ field ∧ '\'' ∉ field := by
  refine ⟨?_, h.1, h.2.1⟩
  rintro rfl
  have h0 : stod [] = Except.error Error.invalid_argument := by
    have hd : read_decimal [] = none := by decide
    simp only [stod, hd]
  have h1 := h.2.2
  rw [h0] at h1
  cases h1

theorem forall₂_text {T : Type} (P : List Char → T → Prop) (fields : List (List Char))
    (vs : List T) (h : List.Forall₂ P fields vs)
    (hP : ∀ f v, P f v → f ≠ [] ∧ ',' ∉ f ∧ '\'' ∉ f) :
    ∀ f ∈ fields, f ≠ [] ∧ ',' ∉ f ∧ '\'' ∉ f := by
  induction h with
  | nil => simp
  | cons hfv _ ih =>
    intro f hf
    rcases List.mem_cons.mp hf with rfl | hf
    · exact hP _ _ hfv
    · exact ih f hf

/-- A data line in the format of the table is parsed as its row. -/
theorem row_parses_of_reads (row : List Char) (r : Nat × List ℚ) (h : row_reads row r) :
    row_parses row r := by
  obtain ⟨label, fields, rfl, hlabel, hfields⟩ := h
  refine ⟨label, fields, ?_, read_otu_of_label label r.1 hlabel,
    hfields.imp (fun _ _ h => h.2.2)⟩
  apply tokenizeB_intercalate
  intro l hl
  rcases List.mem_cons.mp hl with rfl | hl
  · exact is_label_text _ _ hlabel
  · exact forall₂_text is_value fields r.2 hfields is_value_text l hl

/-- Lines in the format of the table are parsed as the table. -/
theorem parses_of_reads (t : Table) (csv_file : List (List Char)) (h : t.reads csv_file) :
    t.parses csv_file := by
  obtain ⟨labels, data, rfl, hlabels, hrows⟩ := h
  refine ⟨_, data, labels, rfl, ?_, hlabels.imp (fun _ _ h => read_otu_of_label _ _ h),
    hrows.imp (fun _ _ h => row_parses_of_reads _ _ h)⟩
  exact tokenizeB_intercalate labels (forall₂_text is_label labels t.otus hlabels is_label_text)

/-! The cells that the data rows fill -/

/-- A cell that the row does not assign keeps its content. -/
theorem write_cells_untouched (row : Nat) (ws : List (Nat × ℚ)) (cell : Nat → Nat → Double)
    (i j : Nat) (h : i ≠ row ∨ ∀ w ∈ ws, w.1 ≠ j) :
    write_cells cell row ws i j = cell i j := by
  induction ws generalizing cell with
  | nil => rfl
  | cons w rest ih =>
    obtain ⟨k, u⟩ := w
    have h1 : i ≠ row ∨ ∀ w ∈ rest, w.1 ≠ j := by
      rcases h with h | h
      · exact Or.inl h
      · exact Or.inr (fun w hw => h w (by simp [hw]))
    have h2 : ¬ (i = row ∧ j = k) := by
      rintro ⟨hi, hj⟩
      rcases h with h | h
      · exact h hi
      · exact h (k, u) (by simp) hj.symm
    rw [write_cells, ih _ h1, if_neg h2]

/-- A cell that the row assigns once holds the value assigned. -/
theorem write_cells_written (row : Nat) (ws : List (Nat × ℚ)) (cell : Nat → Nat → Double)
    (j : Nat) (v : ℚ) (hnodup : (ws.map Prod.fst).Nodup) (hmem : (j, v) ∈ ws) :
    write_cells cell row ws row j = Double.val v := by
  induction ws generalizing cell with
  | nil => simp at hmem
  | cons w rest ih =>
    obtain ⟨k, u⟩ := w
    rw [List.map_cons, List.nodup_cons] at hnodup
    rw [write_cells]
    rcases List.mem_cons.mp hmem with heq | hrest
    · obtain ⟨rfl, rfl⟩ := Prod.mk.inj heq
      rw [write_cells_untouched row rest _ row j (Or.inr ?_)]
      · simp
      · intro w hw hj
        exact hnodup.1 (List.mem_map.mpr ⟨w, hw, hj⟩)
    · exact ih _ hnodup.2 hrest

/-- A property of the values carries over to the cells. -/
theorem write_cells_pred (P : Double → Prop) (row : Nat) (ws : List (Nat × ℚ))
    (cell : Nat → Nat → Double) (hcell : ∀ i j, P (cell i j))
    (hws : ∀ w ∈ ws, P (Double.val w.2)) (i j : Nat) :
    P (write_cells cell row ws i j) := by
  induction ws generalizing cell with
  | nil => exact hcell i j
  | cons w rest ih =>
    obtain ⟨k, u⟩ := w
    rw [write_cells]
    apply ih
    · intro a b
      by_cases hab : a = row ∧ b = k
      · rw [if_pos hab]
        exact hws (k, u) (by simp)
      · rw [if_neg hab]
        exact hcell a b
    · exact fun w hw => hws w (by simp [hw])

theorem write_rows_cons (otus : List Nat) (cell : Nat → Nat → Double) (r : Nat × List ℚ)
    (rows : List (Nat × List ℚ)) :
    write_rows otus cell (r :: rows) =
      write_rows otus (write_cells cell r.1 (otus.zip r.2)) rows := rfl

/-- A cell that no row assigns keeps its content. -/
theorem write_rows_untouched (otus : List Nat) (rows : List (Nat × List ℚ))
    (cell : Nat → Nat → Double) (i j : Nat)
    (h : ∀ r ∈ rows, i ≠ r.1 ∨ ∀ w ∈ otus.zip r.2, w.1 ≠ j) :
    write_rows otus cell rows i j = cell i j := by
  induction rows generalizing cell with
  | nil => rfl
  | cons r rest ih =>
    rw [write_rows_cons, ih _ (fun x hx => h x (by simp [hx])),
      write_cells_untouched _ _ _ _ _ (h r (by simp))]

/-- With distinct row identifiers and distinct columns in the row, a cell that a row assigns
holds the value assigned. -/
theorem write_rows_written (otus : List Nat) (rows : List (Nat × List ℚ))
    (cell : Nat → Nat → Double) (r : Nat × List ℚ) (j : Nat) (v : ℚ)
    (hrows : (rows.map Prod.fst).Nodup) (hr : r ∈ rows)
    (hcols : ((otus.zip r.2).map Prod.fst).Nodup) (hmem : (j, v) ∈ otus.zip r.2) :
    write_rows otus cell rows r.1 j = Double.val v := by
  induction rows generalizing cell with
  | nil => simp at hr
  | cons r0 rest ih =>
    rw [List.map_cons, List.nodup_cons] at hrows
    rw [write_rows_cons]
    rcases List.mem_cons.mp hr with rfl | hrest
    · rw [write_rows_untouched otus rest _ r.1 j ?_]
      · exact write_cells_written r.1 _ cell j v hcols hmem
      · intro x hx
        refine Or.inl (fun hxr => hrows.1 (List.mem_map.mpr ⟨x, hx, hxr.symm⟩))
    · exact ih _ hrows.2 hrest

/-- A property of the values carries over to the cells. -/
theorem write_rows_pred (P : Double → Prop) (otus : List Nat) (rows : List (Nat × List ℚ))
    (cell : Nat → Nat → Double) (hcell : ∀ i j, P (cell i j))
    (hrows : ∀ r ∈ rows, ∀ v ∈ r.2, P (Double.val v)) (i j : Nat) :
    P (write_rows otus cell rows i j) := by
  induction rows generalizing cell with
  | nil => exact hcell i j
  | cons r rest ih =>
    rw [write_rows_cons]
    apply ih
    · intro a b
      apply write_cells_pred P r.1 _ cell hcell
      intro w hw
      obtain ⟨k, u⟩ := w
      exact hrows r (by simp) u (List.of_mem_zip hw).2
    · exact fun x hx => hrows x (by simp [hx])

/-- The columns that a row assigns are distinct when the header identifiers are. -/
theorem zip_keys_nodup (otus : List Nat) (vs : List ℚ) (h : otus.Nodup) :
    ((otus.zip vs).map Prod.fst).Nodup := by
  induction otus generalizing vs with
  | nil => simp
  | cons o rest ih =>
    cases vs with
    | nil => simp
    | cons v vs1 =>
      rw [List.nodup_cons] at h
      rw [List.zip_cons_cons, List.map_cons, List.nodup_cons]
      refine ⟨?_, ih vs1 h.2⟩
      intro hmem
      obtain ⟨w, hw, hwo⟩ := List.mem_map.mp hmem
      obtain ⟨a, b⟩ := w
      have := (List.of_mem_zip hw).1
      simp only at hwo
      subst hwo
      exact h.1 this

/-- The pair of the `j`-th header identifier and the `j`-th value is an assignment of the
row. -/
theorem mem_zip_of_index (otus : List Nat) (vs : List ℚ) (j o : Nat) (v : ℚ)
    (ho : otus[j]? = some o) (hv : vs[j]? = some v) : (o, v) ∈ otus.zip vs := by
  rw [List.mem_iff_getElem?]
  exact ⟨j, List.getElem?_zip_eq_some.mpr ⟨ho, hv⟩⟩

/-- An assignment of the row is the pair of the `j`-th header identifier and the `j`-th
value, for some `j`. -/
theorem index_of_mem_zip (otus : List Nat) (vs : List ℚ) (w : Nat × ℚ)
    (h : w ∈ otus.zip vs) : ∃ j : Nat, otus[j]? = some w.1 ∧ vs[j]? = some w.2 := by
  obtain ⟨j, hj⟩ := List.mem_iff_getElem?.mp h
  have hj1 := List.getElem?_zip_eq_some.mp hj
  exact ⟨j, hj1.1, hj1.2⟩

/-! The maximum of the matrix -/

theorem mem_cells (m : DMatrix) (x : Double) :
    x ∈ m.cells ↔ ∃ i, i < m.num_rows ∧ ∃ j, j < m.num_cols ∧ m.cell i j = x := by
  simp [DMatrix.cells, List.mem_flatMap, List.mem_map, List.mem_range]

/-- The scan for the maximum over finite values ends on a value of the list, or the initial
one, that is at least as large as every other one. -/
theorem foldl_max_val (l : List Double) (hl : ∀ x ∈ l, ∃ q, x = Double.val q) (q0 : ℚ) :
    ∃ M, l.foldl (fun best x => if Double.lt best x then x else best) (Double.val q0) =
        Double.val M ∧
      q0 ≤ M ∧ (∀ q, Double.val q ∈ l → q ≤ M) ∧ (M = q0 ∨ Double.val M ∈ l) := by
  induction l generalizing q0 with
  | nil => exact ⟨q0, rfl, le_refl _, by simp, Or.inl rfl⟩
  | cons x rest ih =>
    obtain ⟨q, rfl⟩ := hl x (by simp)
    have hrest : ∀ x ∈ rest, ∃ q, x = Double.val q := fun x hx => hl x (by simp [hx])
    by_cases hlt : q0 < q
    · obtain ⟨M, hM, h0, hall, hatt⟩ := ih hrest q
      refine ⟨M, ?_, le_trans (le_of_lt hlt) h0, ?_, ?_⟩
      · simpa [List.foldl_cons, Double.lt, hlt] using hM
      · intro q1 hq1
        rcases List.mem_cons.mp hq1 with h | h
        · cases h
          exact h0
        · exact hall q1 h
      · rcases hatt with h | h
        · exact Or.inr (by simp [h])
        · exact Or.inr (by simp [h])
    · obtain ⟨M, hM, h0, hall, hatt⟩ := ih hrest q0
      refine ⟨M, ?_, h0, ?_, ?_⟩
      · simpa [List.foldl_cons, Double.lt, hlt] using hM
      · intro q1 hq1
        rcases List.mem_cons.mp hq1 with h | h
        · cases h
          exact le_trans (not_lt.mp hlt) h0
        · exact hall q1 h
      · rcases hatt with h | h
        · exact Or.inl h
        · exact Or.inr (by simp [h])

/-- The maximum of a non-empty matrix of finite values is the value of one of its cells, at
least as large as every cell. -/
theorem matrix_max_spec (m : DMatrix) (hr : 0 < m.num_rows) (hc : 0 < m.num_cols)
    (hval : ∀ i, i < m.num_rows → ∀ j, j < m.num_cols → ∃ q, m.cell i j = Double.val q) :
    ∃ M, m.max = Except.ok (Double.val M) ∧
      (∃ i, i < m.num_rows ∧ ∃ j, j < m.num_cols ∧ m.cell i j = Double.val M) ∧
      ∀ i, i < m.num_rows → ∀ j, j < m.num_cols → ∀ q, m.cell i j = Double.val q → q ≤ M := by
  obtain ⟨q0, hq0⟩ := hval 0 hr 0 hc
  have hl : ∀ x ∈ m.cells, ∃ q, x = Double.val q := by
    intro x hx
    obtain ⟨i, hi, j, hj, rfl⟩ := (mem_cells m x).mp hx
    exact hval i hi j hj
  obtain ⟨M, hM, h0, hall, hatt⟩ := foldl_max_val m.cells hl q0
  refine ⟨M, ?_, ?_, ?_⟩
  · have hne : ¬ (m.num_rows = 0 ∨ m.num_cols = 0) := by omega
    rw [DMatrix.max, if_neg hne, hq0, hM]
  · rcases hatt with h | h
    · exact ⟨0, hr, 0, hc, by rw [hq0, h]⟩
    · exact (mem_cells m _).mp h
  · intro i hi j hj q hq
    exact hall q ((mem_cells m _).mpr ⟨i, hi, j, hj, hq⟩)

/-- The constructor, once the file is loaded and the maximum of the matrix is known. -/
theorem ctor_of_load (csv_file : List (List Char)) (alpha : Double) (otus : List Nat)
    (raw : DMatrix) (mx : Double) (hload : IBDDistanceCost.load csv_file = Except.ok (otus, raw))
    (hmax : raw.max = Except.ok mx) :
    IBDDistanceCost.ctor csv_file alpha =
      Except.ok { _alpha := alpha, node_rel_costs_ := raw.div_assign mx, otus_ := otus } := by
  simp only [IBDDistanceCost.ctor, hload, hmax]

/-- Dividing a matrix of non-negative finite values, one of them positive, by its maximum:
the maximum is positive, the cells of the quotient lie between `0` and `1`, and its maximum
is `1`. -/
theorem normalized_bounds (m : DMatrix)
    (hval : ∀ i, i < m.num_rows → ∀ j, j < m.num_cols → ∃ q, m.cell i j = Double.val q ∧ 0 ≤ q)
    (hpos : ∃ i, i < m.num_rows ∧ ∃ j, j < m.num_cols ∧ ∃ q, m.cell i j = Double.val q ∧ 0 < q) :
    ∃ M, 0 < M ∧ m.max = Except.ok (Double.val M) ∧
      (m.div_assign (Double.val M)).max = Except.ok (Double.val 1) ∧
      ∀ i, i < m.num_rows → ∀ j, j < m.num_cols →
        ∃ q, (m.div_assign (Double.val M)).cell i j = Double.val q ∧ 0 ≤ q ∧ q ≤ 1 := by
  obtain ⟨i0, hi0, j0, hj0, q0, hq0, hq0pos⟩ := hpos
  have hr : 0 < m.num_rows := by omega
  have hc : 0 < m.num_cols := by omega
  obtain ⟨M, hM, ⟨ia, hia, ja, hja, hatt⟩, hall⟩ := matrix_max_spec m hr hc
    (fun i hi j hj => (hval i hi j hj).imp (fun _ h => h.1))
  have hMpos : 0 < M := lt_of_lt_of_le hq0pos (hall i0 hi0 j0 hj0 q0 hq0)
  have hMne : M ≠ 0 := ne_of_gt hMpos
  have hcell : ∀ i, i < m.num_rows → ∀ j, j < m.num_cols →
      ∃ q, (m.div_assign (Double.val M)).cell i j = Double.val q ∧ 0 ≤ q ∧ q ≤ 1 := by
    intro i hi j hj
    obtain ⟨q, hq, hq0⟩ := hval i hi j hj
    refine ⟨q / M, ?_, div_nonneg hq0 (le_of_lt hMpos), ?_⟩
    · simp [DMatrix.div_assign, hq, Double.div, hMne]
    · rw [div_le_one hMpos]
      exact hall i hi j hj q hq
  refine ⟨M, hMpos, hM, ?_, hcell⟩
  obtain ⟨M1, hM1, ⟨ib, hib, jb, hjb, hatt1⟩, hall1⟩ :=
    matrix_max_spec (m.div_assign (Double.val M)) hr hc
      (fun i hi j hj => (hcell i hi j hj).imp (fun _ h => h.1))
  have hle : M1 ≤ 1 := by
    obtain ⟨q, hq, -, hq1⟩ := hcell ib hib jb hjb
    rw [hatt1] at hq
    cases hq
    exact hq1
  have hge : 1 ≤ M1 := by
    apply hall1 ia hia ja hja 1
    simp [DMatrix.div_assign, hatt, Double.div, hMne]
  rw [hM1, le_antisymm hle hge]

/-- On lines that read as the table `t`, when the maximum `M` of the matrix that the rows
fill is not zero, the constructor succeeds and the cells of its matrix are the cells that
the rows fill, divided by `M`. -/
theorem ctor_of_parses (t : Table) (csv_file : List (List Char)) (alpha : Double) (M : ℚ)
    (hparses : t.parses csv_file) (hfit : t.max_otu + 1 < 2 ^ 64)
    (hb : ∀ r ∈ t.rows, r.1 ≤ t.max_otu ∧ r.2.length ≤ t.otus.length)
    (hmax : DMatrix.max { num_rows := t.max_otu + 1, num_cols := t.max_otu + 1,
                          cell := t.raw_cells } = Except.ok (Double.val M)) :
    IBDDistanceCost.ctor csv_file alpha =
      Except.ok { _alpha := alpha,
                  node_rel_costs_ :=
                    { num_rows := t.max_otu + 1, num_cols := t.max_otu + 1,
                      cell := fun i j => Double.div (t.raw_cells i j) (Double.val M) },
                  otus_ := t.otus } := by
  rw [ctor_of_load csv_file alpha _ _ _ (load_of_parses t csv_file hparses hfit hb) hmax]
  rfl

/-- The conversion to `std::size_t` of an identifier that fits. -/
theorem to_size_t_natCast (n : Nat) (h : n < 2 ^ 64) : to_size_t (n : Int) = n := by
  unfold to_size_t
  have h1 : ((n : Int) % 2 ^ 64) = (n : Int) :=
    Int.emod_eq_of_lt (Int.natCast_nonneg n) (by exact_mod_cast h)
  rw [h1, Int.toNat_natCast]

/-! The table of the end-to-end example -/

theorem stod_digit_0 : stod "0".toList = Except.ok (Double.val 0) := by
  have h : read_decimal "0".toList = some ⟨false, 0, 0, 0⟩ := by decide
  simp only [stod, h, Decimal.magnitude, dbl_max, dbl_min]
  norm_num

theorem stod_digit_2 : stod "2".toList = Except.ok (Double.val 2) := by
  have h : read_decimal "2".toList = some ⟨false, 2, 0, 0⟩ := by decide
  simp only [stod, h, Decimal.magnitude, dbl_max, dbl_min]
  norm_num

theorem stod_digit_4 : stod "4".toList = Except.ok (Double.val 4) := by
  have h : read_decimal "4".toList = some ⟨false, 4, 0, 0⟩ := by decide
  simp only [stod, h, Decimal.magnitude, dbl_max, dbl_min]
  norm_num

theorem stod_digit_5 : stod "5".toList = Except.ok (Double.val 5) := by
  have h : read_decimal "5".toList = some ⟨false, 5, 0, 0⟩ := by decide
  simp only [stod, h, Decimal.magnitude, dbl_max, dbl_min]
  norm_num

theorem stod_digit_6 : stod "6".toList = Except.ok (Double.val 6) := by
  have h : read_decimal "6".toList = some ⟨false, 6, 0, 0⟩ := by decide
  simp only [stod, h, Decimal.magnitude, dbl_max, dbl_min]
  norm_num

theorem is_label_id_1 : is_label "id_1".toList 1 :=
  ⟨"id".toList, "1".toList, by decide, by decide, by decide, by decide, by decide, by decide,
    by norm_num⟩

theorem is_label_id_2 : is_label "id_2".toList 2 :=
  ⟨"id".toList, "2".toList, by decide, by decide, by decide, by decide, by decide, by decide,
    by norm_num⟩

theorem is_label_id_3 : is_label "id_3".toList 3 :=
  ⟨"id".toList, "3".toList, by decide, by decide, by decide, by decide, by decide, by decide,
    by norm_num⟩

theorem is_value_0 : is_value "0".toList 0 := ⟨by decide, by decide, stod_digit_0⟩

theorem is_value_2 : is_value "2".toList 2 := ⟨by decide, by decide, stod_digit_2⟩

theorem is_value_4 : is_value "4".toList 4 := ⟨by decide, by decide, stod_digit_4⟩

theorem is_value_5 : is_value "5".toList 5 := ⟨by decide, by decide, stod_digit_5⟩

theorem is_value_6 : is_value "6".toList 6 := ⟨by decide, by decide, stod_digit_6⟩

/-- The lines of the end-to-end example read as the table `example_parsed`. -/
theorem example_table_reads : example_parsed.reads example_table := by
  refine ⟨["id_1".toList, "id_2".toList, "id_3".toList],
    ["id_1,0,2,4".toList, "id_2,2,0,6".toList, "id_3,4,6,0".toList], by decide, ?_, ?_⟩
  · exact List.Forall₂.cons is_label_id_1 (List.Forall₂.cons is_label_id_2
      (List.Forall₂.cons is_label_id_3 List.Forall₂.nil))
  · refine List.Forall₂.cons ?_ (List.Forall₂.cons ?_ (List.Forall₂.cons ?_ List.Forall₂.nil))
    · exact ⟨"id_1".toList, ["0".toList, "2".toList, "4".toList], by decide, is_label_id_1,
        List.Forall₂.cons is_value_0 (List.Forall₂.cons is_value_2
          (List.Forall₂.cons is_value_4 List.Forall₂.nil))⟩
    · exact ⟨"id_2".toList, ["2".toList, "0".toList, "6".toList], by decide, is_label_id_2,
        List.Forall₂.cons is_value_2 (List.Forall₂.cons is_value_0
          (List.Forall₂.cons is_value_6 List.Forall₂.nil))⟩
    · exact ⟨"id_3".toList, ["4".toList, "6".toList, "0".toList], by decide, is_label_id_3,
        List.Forall₂.cons is_value_4 (List.Forall₂.cons is_value_6
          (List.Forall₂.cons is_value_0 List.Forall₂.nil))⟩

theorem example_table_parses : example_parsed.parses example_table :=
  parses_of_reads _ _ example_table_reads

theorem example_parsed_max_otu : example_parsed.max_otu = 3 := by decide

theorem example_parsed_bounds :
    ∀ r ∈ example_parsed.rows, r.1 ≤ example_parsed.max_otu ∧
      r.2.length ≤ example_parsed.otus.length := by
  rw [example_parsed_max_otu]
  simp [example_parsed]

/-- The maximum of the matrix that the rows of the example fill is `6`. -/
theorem example_parsed_max :
    DMatrix.max { num_rows := example_parsed.max_otu + 1,
                  num_cols := example_parsed.max_otu + 1,
                  cell := example_parsed.raw_cells } = Except.ok (Double.val 6) := by
  rw [example_parsed_max_otu]
  norm_num [DMatrix.max, DMatrix.cells, List.range, List.range.loop, Table.raw_cells,
    write_rows, write_cells, example_parsed, Double.lt]

theorem duplicate_table_reads : duplicate_parsed.reads duplicate_table := by
  refine ⟨["id_1".toList, "id_1".toList], ["id_1,5,0".toList], by decide, ?_, ?_⟩
  · exact List.Forall₂.cons is_label_id_1 (List.Forall₂.cons is_label_id_1 List.Forall₂.nil)
  · exact List.Forall₂.cons ⟨"id_1".toList, ["5".toList, "0".toList], by decide, is_label_id_1,
      List.Forall₂.cons is_value_5 (List.Forall₂.cons is_value_0 List.Forall₂.nil)⟩
      List.Forall₂.nil

theorem duplicate_table_parses : duplicate_parsed.parses duplicate_table :=
  parses_of_reads _ _ duplicate_table_reads

theorem duplicate_parsed_max_otu : duplicate_parsed.max_otu = 1 := by decide

theorem duplicate_parsed_valid : duplicate_parsed.valid := by
  refine ⟨by rw [duplicate_parsed_max_otu]; norm_num, ?_, ?_⟩
  · rw [duplicate_parsed_max_otu]
    simp [duplicate_parsed]
  · exact ⟨(1, [5, 0]), by simp [duplicate_parsed], 5, by simp, by norm_num⟩

theorem example_parsed_valid : example_parsed.valid := by
  refine ⟨by rw [example_parsed_max_otu]; norm_num, ?_, ?_⟩
  · rw [example_parsed_max_otu]
    simp [example_parsed]
  · exact ⟨(1, [0, 2, 4]), by simp [example_parsed], 2, by simp, by norm_num⟩

/-! The tokenizer: claims -/

/-- C1: on a line that contains no single quote, `tokenizeB` succeeds and yields exactly the
non-empty pieces of the line split at every occurrence of the separator, in order. -/
theorem tokenizeB_unquoted_line (sep : Char) (line : List Char) (h : '\'' ∉ line) :
    tokenizeB line sep [] =
      Except.ok ((line.splitOn sep).filter (fun piece => !piece.isEmpty)) := by
  rw [tokenizeB_eq_scan, scan_no_quote sep line h]
  obtain ⟨hd, tl, hspl⟩ : ∃ hd tl, line.splitOn sep = hd :: tl := by
    cases hsp : line.splitOn sep with
    | nil => exact absurd hsp (List.splitOnP_ne_nil _ _)
    | cons a b => exact ⟨a, b, rfl⟩
  simp [hspl, List.modifyHead]

/-- C1, witness: `",,a,,"` on `','` has no quote and yields `["a"]`. -/
theorem tokenizeB_unquoted_line_witness :
    '\'' ∉ ",,a,,".toList ∧ tokenizeB ",,a,,".toList ',' [] = Except.ok ["a".toList] :=
  ⟨by decide, (tokenizeB_unquoted_line ',' ",,a,,".toList (by decide)).trans (by decide)⟩

/-- C2: whenever `tokenizeB` succeeds, the output vector is its initial content followed by
the emitted fields, and no emitted field is the empty string. -/
theorem tokenizeB_no_empty_field (sep : Char) (line : List Char) (words out : List (List Char))
    (h : tokenizeB line sep words = Except.ok out) :
    ∃ fields, out = words ++ fields ∧ ∀ f ∈ fields, f ≠ [] := by
  rw [tokenizeB_eq_scan] at h
  exact scan_fields_ne_nil sep line true [] words out h

/-- C2, witness: `"a,,b"` on `','` succeeds with the two fields `"a"` and `"b"`. -/
theorem tokenizeB_no_empty_field_witness :
    tokenizeB "a,,b".toList ',' [] = Except.ok ["a".toList, "b".toList] ∧
      ∃ fields, ["a".toList, "b".toList] = [] ++ fields ∧ ∀ f ∈ fields, f ≠ [] :=
  ⟨by decide, tokenizeB_no_empty_field ',' "a,,b".toList [] _ (by decide)⟩

/-- C3: a line with an odd number of single quotes makes `tokenizeB` fail, with one of its
two errors. -/
theorem tokenizeB_unmatched_quote (sep : Char) (line : List Char) (words : List (List Char))
    (h : line.count '\'' % 2 = 1) :
    tokenizeB line sep words = Except.error Error.closing_quote ∨
      tokenizeB line sep words = Except.error Error.unbalanced_quotes := by
  rw [tokenizeB_eq_scan]
  cases hres : scan sep line true [] words with
  | error e =>
    rcases scan_error_kind sep line true [] words e hres with rfl | rfl
    · exact Or.inl rfl
    · exact Or.inr rfl
  | ok out =>
    have := scan_ok_parity sep line true [] words out hres
    simp at this
    omega

/-- C3, witness: `"a,'b"` has one quote and tokenizing it on `','` fails. -/
theorem tokenizeB_unmatched_quote_witness :
    "a,'b".toList.count '\'' % 2 = 1 ∧
      (tokenizeB "a,'b".toList ',' [] = Except.error Error.closing_quote ∨
        tokenizeB "a,'b".toList ',' [] = Except.error Error.unbalanced_quotes) :=
  ⟨by decide, tokenizeB_unmatched_quote ',' "a,'b".toList [] (by decide)⟩

/-- C4: `tokenizeB` fails with the closing-quote error exactly when the line has a quote that
closes a quoted region (an odd number of quotes precedes it), is not the last character, and
is followed by a character other than the separator.  So such a quote makes the call fail,
and a closing quote that ends the line or is followed by the separator never raises this
error. -/
theorem tokenizeB_closing_quote_iff (sep : Char) (line : List Char) (words : List (List Char)) :
    tokenizeB line sep words = Except.error Error.closing_quote ↔
      ∃ pre c post, line = pre ++ '\'' :: c :: post ∧ pre.count '\'' % 2 = 1 ∧ c ≠ sep := by
  rw [tokenizeB_eq_scan, scan_closing_quote_iff]
  simp

/-- C5: a quoted field is kept as one field, with its quotes and the separators inside it;
after the separator that follows it the rest of the line is tokenized as if alone. -/
theorem tokenizeB_quoted_field (sep : Char) (w rest : List Char) (hsep : sep ≠ '\'')
    (hw : '\'' ∉ w) :
    tokenizeB ('\'' :: w ++ ['\'']) sep [] = Except.ok ['\'' :: w ++ ['\'']] ∧
    tokenizeB ('\'' :: w ++ '\'' :: sep :: rest) sep [] =
      Except.map (fun fields => ('\'' :: w ++ ['\'']) :: fields) (tokenizeB rest sep []) := by
  constructor
  · rw [tokenizeB_eq_scan, List.cons_append, scan_cons, if_pos rfl, if_neg (by simp),
      Bool.not_true, scan_inside sep w hw, scan_cons, if_pos rfl, if_neg (by simp),
      Bool.not_false, scan_nil]
    simp
  · rw [tokenizeB_eq_scan, tokenizeB_eq_scan, List.cons_append, scan_cons, if_pos rfl,
      if_neg (by simp), Bool.not_true, scan_inside sep w hw, scan_cons, if_pos rfl,
      if_neg (by simp), Bool.not_false, scan_cons, if_neg hsep, if_pos (by simp), scan_words]
    simp

/-- C5, witness: `"'a,b',c"` on `','` yields `["'a,b'", "c"]`. -/
theorem tokenizeB_quoted_field_witness :
    tokenizeB "'a,b',c".toList ',' [] = Except.ok ["'a,b'".toList, "c".toList] :=
  (tokenizeB_quoted_field ',' "a,b".toList "c".toList (by decide) (by decide)).2.trans
    (by decide)

/-- C6, as stated, fails when the separator is the single quote: the line made of one quote
does not tokenize to the empty sequence, the call fails. -/
theorem tokenizeB_only_separators_counterexample :
    tokenizeB (List.replicate 1 '\'') '\'' [] = Except.error Error.unbalanced_quotes ∧
      tokenizeB (List.replicate 1 '\'') '\'' [] ≠ Except.ok [] := by
  decide

/-- C6, amended: for a separator other than the single quote, the line made of `n` copies of
the separator tokenizes to the empty sequence of fields. -/
theorem tokenizeB_only_separators (sep : Char) (n : Nat) (hsep : sep ≠ '\'') :
    tokenizeB (List.replicate n sep) sep [] = Except.ok [] := by
  rw [tokenizeB_eq_scan]
  exact scan_replicate sep hsep n []

/-- C6, witness: `",,,"` on `','` yields no field. -/
theorem tokenizeB_only_separators_witness :
    tokenizeB (List.replicate 3 ',') ',' [] = Except.ok [] :=
  tokenizeB_only_separators ',' 3 (by decide)

/-- C7, as stated, fails when the separator is the single quote: the empty line tokenizes to
no field, and the empty line with one trailing quote makes the call fail. -/
theorem tokenizeB_trailing_separator_counterexample :
    tokenizeB [] '\'' [] = Except.ok [] ∧
      tokenizeB ([] ++ ['\'']) '\'' [] = Except.error Error.unbalanced_quotes ∧
      tokenizeB ([] ++ ['\'']) '\'' [] ≠ Except.ok [] := by
  decide

/-- C7, amended: for a separator other than the single quote, when tokenizing a line
succeeds, tokenizing the line with one more separator at its end succeeds with the same
fields. -/
theorem tokenizeB_trailing_separator (sep : Char) (line : List Char)
    (fields : List (List Char)) (hsep : sep ≠ '\'')
    (h : tokenizeB line sep [] = Except.ok fields) :
    tokenizeB (line ++ [sep]) sep [] = Except.ok fields := by
  rw [tokenizeB_eq_scan] at h ⊢
  exact scan_trailing_sep sep hsep line true [] [] fields h

/-- C7, witness: `"a,'b,c'"` and `"a,'b,c',"` both yield `["a", "'b,c'"]` on `','`. -/
theorem tokenizeB_trailing_separator_witness :
    tokenizeB "a,'b,c'".toList ',' [] = Except.ok ["a".toList, "'b,c'".toList] ∧
      tokenizeB ("a,'b,c'".toList ++ [',']) ',' [] = Except.ok ["a".toList, "'b,c'".toList] :=
  ⟨by decide, tokenizeB_trailing_separator ',' "a,'b,c'".toList _ (by decide) (by decide)⟩

/-! The cost model: claims -/

/-- C8: the end-to-end example.  With `alpha = 0.5` the constructor succeeds on the table of
the example, the node substitution cost of the identifiers `(1, 2)` is `0.5 * (2 / 6)`, that
of `(1, 3)` is `0.5 * (4 / 6)`, and the node deletion cost is `0.5` for every node. -/
theorem end_to_end_example :
    ∃ c, IBDDistanceCost.ctor example_table (Double.val (1 / 2)) = Except.ok c ∧
      c.NodeSubstitutionCost { attr := 1 } { attr := 2 } =
        Except.ok (Double.val (1 / 2 * (2 / 6))) ∧
      c.NodeSubstitutionCost { attr := 1 } { attr := 3 } =
        Except.ok (Double.val (1 / 2 * (4 / 6))) ∧
      ∀ n1, c.NodeDeletionCost n1 = Double.val (1 / 2) := by
  refine ⟨_, ctor_of_parses example_parsed example_table _ 6 example_table_parses
    example_parsed_valid.1 example_parsed_bounds example_parsed_max, ?_, ?_, ?_⟩
  · have h1 : to_size_t 1 = 1 := by decide
    have h2 : to_size_t 2 = 2 := by decide
    rw [example_parsed_max_otu]
    norm_num [IBDDistanceCost.NodeSubstitutionCost, DMatrix.get, h1, h2, Table.raw_cells,
      write_rows, write_cells, example_parsed, Double.div, Double.mul]
  · have h1 : to_size_t 1 = 1 := by decide
    have h3 : to_size_t 3 = 3 := by decide
    rw [example_parsed_max_otu]
    norm_num [IBDDistanceCost.NodeSubstitutionCost, DMatrix.get, h1, h3, Table.raw_cells,
      write_rows, write_cells, example_parsed, Double.div, Double.mul]
  · intro n1
    rfl

/-- C9, as stated, fails: the table with the header `id_1,id_1` and the row `id_1,5,0` is in
the format of the table and valid, its second value overwrites the first one, the matrix is
all zero when it is divided by its maximum, and every cell of the result is not a number. -/
theorem normalized_matrix_counterexample :
    duplicate_parsed.reads duplicate_table ∧ duplicate_parsed.valid ∧
      ∃ c, IBDDistanceCost.ctor duplicate_table (Double.val (1 / 2)) = Except.ok c ∧
        c.node_rel_costs_.max = Except.ok Double.nan ∧
        ∀ i j, c.node_rel_costs_.cell i j = Double.nan := by
  have hcells : ∀ i j, duplicate_parsed.raw_cells i j = Double.val 0 := by
    intro i j
    by_cases h : i = 1 ∧ j = 1 <;>
      simp [Table.raw_cells, write_rows, write_cells, duplicate_parsed, h]
  have hmax : DMatrix.max
      { num_rows := duplicate_parsed.max_otu + 1,
        num_cols := duplicate_parsed.max_otu + 1,
        cell := duplicate_parsed.raw_cells } = Except.ok (Double.val 0) := by
    rw [duplicate_parsed_max_otu]
    simp [DMatrix.max, DMatrix.cells, List.range, List.range.loop, hcells, Double.lt]
  refine ⟨duplicate_table_reads, duplicate_parsed_valid, _,
    ctor_of_parses duplicate_parsed duplicate_table _ 0 duplicate_table_parses
      duplicate_parsed_valid.1 (fun r hr => ⟨(duplicate_parsed_valid.2.1 r hr).1,
        le_of_eq (duplicate_parsed_valid.2.1 r hr).2.1⟩) hmax, ?_, ?_⟩
  · rw [duplicate_parsed_max_otu]
    simp [DMatrix.max, DMatrix.cells, List.range, List.range.loop, hcells, Double.lt,
      Double.div]
  · intro i j
    simp [hcells, Double.div]

/-- C9, amended: after loading a valid table whose header identifiers are pairwise distinct
and whose row identifiers are pairwise distinct, the maximum of the normalized matrix is `1`
and every cell of the matrix, of size `max_otu + 1`, lies between `0` and `1`. -/
theorem normalized_matrix_bounds (t : Table) (csv_file : List (List Char)) (alpha : Double)
    (hreads : t.reads csv_file) (hvalid : t.valid) (hheader : t.otus.Nodup)
    (hrowids : (t.rows.map Prod.fst).Nodup) :
    ∃ c, IBDDistanceCost.ctor csv_file alpha = Except.ok c ∧
      c.node_rel_costs_.num_rows = t.max_otu + 1 ∧
      c.node_rel_costs_.num_cols = t.max_otu + 1 ∧
      c.node_rel_costs_.max = Except.ok (Double.val 1) ∧
      ∀ i, i < t.max_otu + 1 → ∀ j, j < t.max_otu + 1 →
        ∃ q, c.node_rel_costs_.cell i j = Double.val q ∧ 0 ≤ q ∧ q ≤ 1 := by
  have hparses := parses_of_reads t csv_file hreads
  obtain ⟨hfit, hrows, r, hr, v, hv, hv0⟩ := hvalid
  have hval : ∀ i j, ∃ q, t.raw_cells i j = Double.val q ∧ 0 ≤ q :=
    write_rows_pred (fun x => ∃ q, x = Double.val q ∧ 0 ≤ q) t.otus t.rows _
      (fun _ _ => ⟨0, rfl, le_refl _⟩) (fun r hr v hv => ⟨v, rfl, (hrows r hr).2.2 v hv⟩)
  obtain ⟨j, hj⟩ := List.mem_iff_getElem?.mp hv
  have hjlt : j < t.otus.length := by
    rw [← (hrows r hr).2.1]
    exact (List.getElem?_eq_some.mp hj).1
  have ho : t.otus[j]? = some t.otus[j] := List.getElem?_eq_getElem hjlt
  have hcell : t.raw_cells r.1 t.otus[j] = Double.val v :=
    write_rows_written t.otus t.rows _ r t.otus[j] v hrowids hr
      (zip_keys_nodup t.otus r.2 hheader) (mem_zip_of_index t.otus r.2 j _ v ho hj)
  have hvpos : 0 < v := lt_of_le_of_ne ((hrows r hr).2.2 v hv) (Ne.symm hv0)
  obtain ⟨M, -, hM, hmax1, hbounds⟩ := normalized_bounds
    { num_rows := t.max_otu + 1, num_cols := t.max_otu + 1, cell := t.raw_cells }
    (fun i _ j _ => hval i j)
    ⟨r.1, Nat.lt_succ_of_le (hrows r hr).1, t.otus[j],
      Nat.lt_succ_of_le (le_max_otu t _ (List.getElem_mem hjlt)), v, hcell, hvpos⟩
  exact ⟨_, ctor_of_parses t csv_file alpha M hparses hfit
    (fun r hr => ⟨(hrows r hr).1, le_of_eq (hrows r hr).2.1⟩) hM, rfl, rfl, hmax1, hbounds⟩

/-- C9, witness: the table of the end-to-end example is valid, with distinct identifiers. -/
theorem normalized_matrix_bounds_witness :
    ∃ c, IBDDistanceCost.ctor example_table (Double.val (1 / 2)) = Except.ok c ∧
      c.node_rel_costs_.num_rows = example_parsed.max_otu + 1 ∧
      c.node_rel_costs_.num_cols = example_parsed.max_otu + 1 ∧
      c.node_rel_costs_.max = Except.ok (Double.val 1) ∧
      ∀ i, i < example_parsed.max_otu + 1 → ∀ j, j < example_parsed.max_otu + 1 →
        ∃ q, c.node_rel_costs_.cell i j = Double.val q ∧ 0 ≤ q ∧ q ≤ 1 :=
  normalized_matrix_bounds example_parsed example_table (Double.val (1 / 2))
    example_table_reads example_parsed_valid (by decide) (by decide)

/-- C10: for a well-formed table with distinct header identifiers and distinct row
identifiers, when the maximum `M` of the matrix that the constructor has built is positive,
the constructor succeeds, the cell at the row identifier and the `j`-th header identifier
holds the `j`-th value of the row divided by `M`, the node substitution cost of that pair
(of identifiers that fit `int`) is `alpha` times that, and every cell within the bound that
no row and column of the input cover is `0`. -/
theorem matrix_entries (t : Table) (csv_file : List (List Char)) (alpha : Double)
    (raw : DMatrix) (M : ℚ) (hreads : t.reads csv_file) (hwf : t.well_formed)
    (hheader : t.otus.Nodup) (hrowids : (t.rows.map Prod.fst).Nodup)
    (hload : IBDDistanceCost.load csv_file = Except.ok (t.otus, raw))
    (hmax : raw.max = Except.ok (Double.val M)) (hM : 0 < M) :
    ∃ c, IBDDistanceCost.ctor csv_file alpha = Except.ok c ∧
      (∀ r ∈ t.rows, ∀ (j o : Nat) (v : ℚ), t.otus[j]? = some o → r.2[j]? = some v →
        c.node_rel_costs_.cell r.1 o = Double.val (v / M) ∧
        (r.1 < 2 ^ 31 → o < 2 ^ 31 →
          c.SubstitutionCost r.1 o = Except.ok (Double.mul alpha (Double.val (v / M))))) ∧
      (∀ i k, i ≤ t.max_otu → k ≤ t.max_otu →
        (∀ r ∈ t.rows, ∀ (j : Nat) (v : ℚ), r.1 = i → t.otus[j]? = some k → r.2[j]? ≠ some v) →
        c.node_rel_costs_.cell i k = Double.val 0) := by
  have hparses := parses_of_reads t csv_file hreads
  obtain ⟨hfit, hb⟩ := hwf
  have hMne : M ≠ 0 := ne_of_gt hM
  have hraw : raw =
      { num_rows := t.max_otu + 1, num_cols := t.max_otu + 1, cell := t.raw_cells } := by
    have h := (load_of_parses t csv_file hparses hfit hb).symm.trans hload
    simp only [Except.ok.injEq, Prod.mk.injEq, true_and] at h
    exact h.symm
  subst hraw
  refine ⟨_, ctor_of_parses t csv_file alpha M hparses hfit hb hmax, ?_, ?_⟩
  · intro r hr j o v ho hv
    have hcell : t.raw_cells r.1 o = Double.val v :=
      write_rows_written t.otus t.rows _ r o v hrowids hr
        (zip_keys_nodup t.otus r.2 hheader) (mem_zip_of_index t.otus r.2 j o v ho hv)
    have hr1 : r.1 < t.max_otu + 1 := Nat.lt_succ_of_le (hb r hr).1
    have ho1 : o < t.max_otu + 1 :=
      Nat.lt_succ_of_le (le_max_otu t o (List.mem_iff_getElem?.mpr ⟨j, ho⟩))
    have hdiv : Double.div (t.raw_cells r.1 o) (Double.val M) = Double.val (v / M) := by
      simp [hcell, Double.div, hMne]
    refine ⟨hdiv, fun _ _ => ?_⟩
    simp only [IBDDistanceCost.SubstitutionCost, DMatrix.get,
      to_size_t_natCast r.1 (by omega), to_size_t_natCast o (by omega), hr1, ho1, and_self,
      if_true, hdiv]
  · intro i k _ _ hnone
    have hcell : t.raw_cells i k = Double.val 0 := by
      apply write_rows_untouched
      intro r hr
      by_cases hi : i = r.1
      · refine Or.inr (fun w hw hwk => ?_)
        obtain ⟨j, hjo, hjv⟩ := index_of_mem_zip t.otus r.2 w hw
        exact hnone r hr j w.2 hi.symm (hwk ▸ hjo) hjv
      · exact Or.inl hi
    simp [hcell, Double.div, hMne]

/-- C10, witness: the table of the end-to-end example, whose matrix has the maximum `6`. -/
theorem matrix_entries_witness :
    ∃ c, IBDDistanceCost.ctor example_table (Double.val (1 / 2)) = Except.ok c ∧
      (∀ r ∈ example_parsed.rows, ∀ (j o : Nat) (v : ℚ),
        example_parsed.otus[j]? = some o → r.2[j]? = some v →
        c.node_rel_costs_.cell r.1 o = Double.val (v / 6) ∧
        (r.1 < 2 ^ 31 → o < 2 ^ 31 →
          c.SubstitutionCost r.1 o =
            Except.ok (Double.mul (Double.val (1 / 2)) (Double.val (v / 6))))) ∧
      (∀ i k, i ≤ example_parsed.max_otu → k ≤ example_parsed.max_otu →
        (∀ r ∈ example_parsed.rows, ∀ (j : Nat) (v : ℚ), r.1 = i →
          example_parsed.otus[j]? = some k → r.2[j]? ≠ some v) →
        c.node_rel_costs_.cell i k = Double.val 0) :=
  matrix_entries example_parsed example_table (Double.val (1 / 2)) _ 6 example_table_reads
    ⟨example_parsed_valid.1, example_parsed_bounds⟩ (by decide) (by decide)
    (load_of_parses example_parsed example_table example_table_parses example_parsed_valid.1
      example_parsed_bounds)
    example_parsed_max (by norm_num)

/-! The counters of the loop of `tokenizeB` -/

/-- One iteration of the loop keeps `pos_word_start + word_length = pos`. -/
theorem body_invariant (line : List Char) (sep : Char) (st st1 : TokenizeState) (k : Nat)
    (h : tokenizeB_body line sep st k = Except.ok st1)
    (hinv : st.pos_word_start + st.word_length = k) :
    st1.pos_word_start + st1.word_length = k + 1 := by
  unfold tokenizeB_body at h
  repeat' split at h
  all_goals first
    | (cases h; done)
    | (cases h; simp only; omega)
    | (cases h; simp)

/-- After `k` iterations of the loop, `pos_word_start + word_length = k`. -/
theorem loop_invariant (line : List Char) (sep : Char) (words : List (List Char)) (k : Nat)
    (st : TokenizeState)
    (h : (List.range k).foldlM (tokenizeB_body line sep)
      { outside_quotes := true, word_length := 0, pos_word_start := 0, words := words } =
      Except.ok st) :
    st.pos_word_start + st.word_length = k := by
  induction k generalizing st with
  | zero =>
    simp only [List.range_zero, List.foldlM_nil, pure, Except.pure] at h
    cases h
    rfl
  | succ k ih =>
    rw [List.range_succ, List.foldlM_append] at h
    cases hk : (List.range k).foldlM (tokenizeB_body line sep)
        { outside_quotes := true, word_length := 0, pos_word_start := 0, words := words } with
    | error e =>
      rw [hk] at h
      simp [bind, Except.bind] at h
    | ok st0 =>
      rw [hk] at h
      simp only [bind, Except.bind, List.foldlM_cons, List.foldlM_nil] at h
      cases hb : tokenizeB_body line sep st0 k with
      | error e =>
        rw [hb] at h
        simp at h
      | ok st1 =>
        rw [hb] at h
        simp only [pure, Except.pure] at h
        have hst : st1 = st := Except.ok.inj h
        rw [← hst]
        exact body_invariant line sep st0 st1 k hb (ih st0 hk)

/-! The characters that `scan` keeps -/

theorem fields_in_order_cons_sep (sep : Char) (r : List Char) (fs : List (List Char))
    (h : fields_in_order sep r fs) : fields_in_order sep (sep :: r) fs := by
  obtain ⟨gaps, hlen, hg, hr⟩ := h
  cases gaps with
  | nil => simp at hlen
  | cons g0 gs =>
    refine ⟨(sep :: g0) :: gs, by simpa using hlen, ?_, ?_⟩
    · intro g hgm c hc
      rcases List.mem_cons.mp hgm with rfl | hgm
      · rcases List.mem_cons.mp hc with rfl | hc
        · rfl
        · exact hg g0 (by simp) c hc
      · exact hg g (by simp [hgm]) c hc
    · cases fs with
      | nil =>
        simp only [interleave] at hr ⊢
        rw [hr]
      | cons f fs1 =>
        simp only [interleave] at hr ⊢
        rw [hr]
        simp

theorem fields_in_order_cons_field (sep : Char) (cur r : List Char) (fs : List (List Char))
    (h : fields_in_order sep (sep :: r) fs) : fields_in_order sep (cur ++ sep :: r) (cur :: fs) := by
  obtain ⟨gaps, hlen, hg, hr⟩ := h
  refine ⟨[] :: gaps, by simpa using hlen, ?_, ?_⟩
  · intro g hgm c hc
    rcases List.mem_cons.mp hgm with rfl | hgm
    · simp at hc
    · exact hg g hgm c hc
  · simp only [interleave, List.nil_append]
    rw [hr]

/-- The fields that `scan` adds are, joined, the current word and the remaining characters
without their separators outside quotes, and they lie in order in these characters. -/
theorem scan_strip (sep : Char) (hsep : sep ≠ '\'') (l : List Char) (outside : Bool)
    (cur : List Char) (words out : List (List Char))
    (h : scan sep l outside cur words = Except.ok out) :
    ∃ fs, out = words ++ fs ∧ fs.flatten = cur ++ strip sep l outside ∧
      fields_in_order sep (cur ++ l) fs := by
  induction l generalizing outside cur words with
  | nil =>
    rw [scan_nil] at h
    cases outside
    · simp at h
    · by_cases hc : cur = []
      · subst hc
        simp at h
        exact ⟨[], by simp [h], by simp [strip], [[]], by simp, by simp, by simp [interleave]⟩
      · simp [hc] at h
        exact ⟨[cur], h.symm, by simp [strip], [[], []], by simp, by simp,
          by simp [interleave]⟩
  | cons c r ih =>
    rw [scan_cons] at h
    by_cases hq : c = '\''
    · by_cases hbad : outside = false ∧ r ≠ [] ∧ r.head? ≠ some sep
      · rw [if_pos hq, if_pos hbad] at h
        cases h
      · rw [if_pos hq, if_neg hbad] at h
        obtain ⟨fs, hfs, hflat, hord⟩ := ih _ _ _ h
        refine ⟨fs, hfs, ?_, ?_⟩
        · rw [hflat, strip, if_pos hq]
          simp
        · simpa using hord
    · by_cases hs : outside = true ∧ c = sep
      · rw [if_neg hq, if_pos hs] at h
        obtain ⟨fs, hfs, hflat, hord⟩ := ih _ _ _ h
        obtain ⟨ho, rfl⟩ := hs
        have hord1 : fields_in_order c (c :: r) fs :=
          fields_in_order_cons_sep c r fs (by simpa using hord)
        by_cases hc : cur = []
        · subst hc
          rw [if_neg (by simp)] at hfs
          refine ⟨fs, hfs, ?_, by simpa using hord1⟩
          rw [hflat, strip, if_neg hq, if_pos ⟨ho, rfl⟩]
        · rw [if_pos hc] at hfs
          refine ⟨cur :: fs, by simpa using hfs, ?_, ?_⟩
          · rw [List.flatten_cons, hflat, strip, if_neg hq, if_pos ⟨ho, rfl⟩]
            simp
          · exact fields_in_order_cons_field c cur r fs hord1
      · rw [if_neg hq, if_neg hs] at h
        obtain ⟨fs, hfs, hflat, hord⟩ := ih _ _ _ h
        refine ⟨fs, hfs, ?_, ?_⟩
        · rw [hflat, strip, if_neg hq, if_neg hs]
          simp
        · simpa using hord

/-- `strip` removes the separators at the positions that `outside_separator` names. -/
theorem filterMap_eq_strip (sep : Char) (hsep : sep ≠ '\'') (l pre : List Char) :
    (List.range' pre.length l.length).filterMap
        (fun i => if outside_separator sep (pre ++ l) i then none else (pre ++ l).get? i) =
      strip sep l (decide (pre.count '\'' % 2 = 0)) := by
  induction l generalizing pre with
  | nil => simp [strip]
  | cons c r ih =>
    have hget : (pre ++ c :: r).get? pre.length = some c := by
      rw [List.get?_eq_getElem?, List.getElem?_append_right (le_refl _)]
      simp
    have htake : (pre ++ c :: r).take pre.length = pre := by simp
    have hi := ih (pre ++ [c])
    simp only [List.length_append, List.length_singleton, List.append_assoc,
      List.singleton_append] at hi
    rw [List.length_cons, List.range'_succ, List.filterMap_cons, hi]
    simp only [outside_separator, hget, htake]
    by_cases hq : c = '\''
    · subst hq
      have hne : ¬ (some '\'' = some sep) := by
        intro e
        exact hsep (Option.some.inj e).symm
      have hpar : decide ((pre ++ ['\'']).count '\'' % 2 = 0) =
          !decide (pre.count '\'' % 2 = 0) := by
        rw [List.count_append]
        simp only [List.count_singleton_self]
        by_cases hp : pre.count '\'' % 2 = 0
        · simp [hp]
          omega
        · simp [hp]
          omega
      simp only [hne, decide_False, Bool.false_and, Bool.false_eq_true, if_false, strip,
        if_true, hpar]
    · have hpar : decide ((pre ++ [c]).count '\'' % 2 = 0) = decide (pre.count '\'' % 2 = 0) := by
        rw [List.count_append, List.count_singleton]
        have : (c == '\'') = false := by simpa using hq
        simp [this]
      rw [hpar, strip, if_neg hq]
      by_cases hs : c = sep
      · subst hs
        by_cases hp : pre.count '\'' % 2 = 0
        · simp [hp]
        · simp [hp]
      · have hne : ¬ (some c = some sep) := fun e => hs (Option.some.inj e)
        have hneg : ¬ (decide (pre.count '\'' % 2 = 0) = true ∧ c = sep) := fun e => hs e.2
        simp only [hne, decide_False, Bool.false_and, Bool.false_eq_true, if_false, if_neg hneg]

theorem strip_eq_remove (sep : Char) (hsep : sep ≠ '\'') (line : List Char) :
    strip sep line true = remove_outside_separators sep line := by
  have h := filterMap_eq_strip sep hsep line []
  simp only [List.length_nil, List.nil_append, List.count_nil, Nat.zero_mod, decide_True] at h
  rw [remove_outside_separators, List.range_eq_range', h]

/-! The tokenizer: further claims -/

/-- C17: for a separator other than the single quote, when `tokenizeB` succeeds the fields lie
in the line one after the other, in order (so each is a contiguous substring), with nothing
but separators around them, and joined they are the line without exactly its separators
outside the quoted regions. -/
theorem tokenizeB_keeps_characters (sep : Char) (line : List Char)
    (fields : List (List Char)) (hsep : sep ≠ '\'')
    (h : tokenizeB line sep [] = Except.ok fields) :
    fields_in_order sep line fields ∧ (∀ f ∈ fields, f <:+: line) ∧
      fields.flatten = remove_outside_separators sep line := by
  rw [tokenizeB_eq_scan] at h
  obtain ⟨fs, hfs, hflat, hord⟩ := scan_strip sep hsep line true [] [] fields h
  simp only [List.nil_append] at hfs hflat hord
  subst hfs
  refine ⟨hord, ?_, by rw [hflat, strip_eq_remove sep hsep]⟩
  obtain ⟨gaps, hlen, -, hline⟩ := hord
  rw [hline]
  clear hline hflat h
  induction fields generalizing gaps with
  | nil => simp
  | cons f fs ih =>
    cases gaps with
    | nil => simp at hlen
    | cons g gs =>
      intro x hx
      simp only [interleave]
      rcases List.mem_cons.mp hx with rfl | hx
      · exact ⟨g, interleave gs fs, rfl⟩
      · obtain ⟨a, b, hab⟩ := ih gs (by simpa using hlen) x hx
        exact ⟨g ++ f ++ a, b, by simp [← hab]⟩

/-- C17, witness: `"ab,'c,d',,e"` on `','` yields `["ab", "'c,d'", "e"]`. -/
theorem tokenizeB_keeps_characters_witness :
    fields_in_order ',' "ab,'c,d',,e".toList ["ab".toList, "'c,d'".toList, "e".toList] ∧
      (∀ f ∈ ["ab".toList, "'c,d'".toList, "e".toList], f <:+: "ab,'c,d',,e".toList) ∧
      ["ab".toList, "'c,d'".toList, "e".toList].flatten =
        remove_outside_separators ',' "ab,'c,d',,e".toList :=
  tokenizeB_keeps_characters ',' "ab,'c,d',,e".toList _ (by decide) (by decide)

/-- C18: after `k` iterations of the loop of `tokenizeB`, `pos_word_start + word_length = k`,
so `substr(pos_word_start, word_length)` lies within the line and has the length
`word_length`; `at(pos)` is within the line at every iteration, and so is `at(pos + 1)` when
`pos < size() - 1`; and a call of `tokenizeB` that fails, fails with one of its two errors,
never with `std::out_of_range`. -/
theorem tokenizeB_in_range (sep : Char) (line : List Char) (words : List (List Char)) (k : Nat)
    (st : TokenizeState) (hk : k ≤ line.length)
    (h : (List.range k).foldlM (tokenizeB_body line sep)
      { outside_quotes := true, word_length := 0, pos_word_start := 0, words := words } =
      Except.ok st) :
    st.pos_word_start + st.word_length = k ∧
      (∃ w, string_substr line st.pos_word_start st.word_length = Except.ok w ∧
        w.length = st.word_length) ∧
      (k < line.length → ∃ c, string_at line k = Except.ok c) ∧
      (k < line.length - 1 → ∃ c, string_at line (k + 1) = Except.ok c) ∧
      ∀ e, tokenizeB line sep words = Except.error e →
        e = Error.closing_quote ∨ e = Error.unbalanced_quotes := by
  have hinv := loop_invariant line sep words k st h
  refine ⟨hinv, ?_, ?_, ?_, ?_⟩
  · refine ⟨(line.drop st.pos_word_start).take st.word_length, ?_, ?_⟩
    · rw [string_substr, if_pos (by omega)]
    · rw [List.length_take, List.length_drop]
      omega
  · intro hlt
    refine ⟨line.get ⟨k, hlt⟩, ?_⟩
    simp only [string_at, List.get?_eq_get hlt]
  · intro hlt
    have hlt1 : k + 1 < line.length := by omega
    refine ⟨line.get ⟨k + 1, hlt1⟩, ?_⟩
    simp only [string_at, List.get?_eq_get hlt1]
  · intro e he
    rw [tokenizeB_eq_scan] at he
    exact scan_error_kind sep line true [] words e he

/-- C18, witness: the state of the loop after three iterations on `"a,bc"`. -/
theorem tokenizeB_in_range_witness :
    (2 : Nat) + 1 = 3 ∧
      (∃ w, string_substr "a,bc".toList 2 1 = Except.ok w ∧ w.length = 1) ∧
      (3 < "a,bc".toList.length → ∃ c, string_at "a,bc".toList 3 = Except.ok c) ∧
      (3 < "a,bc".toList.length - 1 → ∃ c, string_at "a,bc".toList (3 + 1) = Except.ok c) ∧
      ∀ e, tokenizeB "a,bc".toList ',' [] = Except.error e →
        e = Error.closing_quote ∨ e = Error.unbalanced_quotes :=
  tokenizeB_in_range ',' "a,bc".toList [] 3
    { outside_quotes := true, word_length := 1, pos_word_start := 2, words := ["a".toList] }
    (by decide) (by decide)

/-- C19: `tokenizeB` only appends to its output vector: called with the initial content
`words` it ends as it does with an empty vector, and when it succeeds it leaves `words`
followed by the fields of the line. -/
theorem tokenizeB_appends (sep : Char) (line : List Char) (words : List (List Char)) :
    tokenizeB line sep words =
      Except.map (fun fields => words ++ fields) (tokenizeB line sep []) := by
  rw [tokenizeB_eq_scan, tokenizeB_eq_scan]
  exact scan_words sep line true [] words

/-! The constructor on degenerate and ill-formed tables -/

theorem raw_cells_val (t : Table) (i j : Nat) : ∃ q, t.raw_cells i j = Double.val q :=
  write_rows_pred (fun x => ∃ q, x = Double.val q) t.otus t.rows _ (fun _ _ => ⟨0, rfl⟩)
    (fun _ _ v _ => ⟨v, rfl⟩) i j

/-- On lines that are parsed as a well-formed table the constructor succeeds: the matrix that
the rows fill has a finite maximum `M`, by which it is divided. -/
theorem ctor_succeeds (t : Table) (csv_file : List (List Char)) (alpha : Double)
    (hparses : t.parses csv_file) (hwf : t.well_formed) :
    ∃ M, DMatrix.max { num_rows := t.max_otu + 1, num_cols := t.max_otu + 1,
                       cell := t.raw_cells } = Except.ok (Double.val M) ∧
      IBDDistanceCost.ctor csv_file alpha =
        Except.ok { _alpha := alpha,
                    node_rel_costs_ :=
                      { num_rows := t.max_otu + 1, num_cols := t.max_otu + 1,
                        cell := fun i j => Double.div (t.raw_cells i j) (Double.val M) },
                    otus_ := t.otus } := by
  obtain ⟨M, hM, -, -⟩ := matrix_max_spec
    { num_rows := t.max_otu + 1, num_cols := t.max_otu + 1, cell := t.raw_cells }
    (Nat.succ_pos _) (Nat.succ_pos _) (fun i _ j _ => raw_cells_val t i j)
  exact ⟨M, hM, ctor_of_parses t csv_file alpha M hparses hwf.1 hwf.2 hM⟩

/-- When every value of a well-formed table is zero, the constructor succeeds and every cell
of its matrix is not a number. -/
theorem ctor_all_zero (t : Table) (csv_file : List (List Char)) (alpha : Double)
    (hparses : t.parses csv_file) (hwf : t.well_formed)
    (hzero : ∀ r ∈ t.rows, ∀ v ∈ r.2, v = 0) :
    IBDDistanceCost.ctor csv_file alpha =
      Except.ok { _alpha := alpha,
                  node_rel_costs_ :=
                    { num_rows := t.max_otu + 1, num_cols := t.max_otu + 1,
                      cell := fun _ _ => Double.nan },
                  otus_ := t.otus } := by
  have hcells : ∀ i j, t.raw_cells i j = Double.val 0 :=
    write_rows_pred (fun x => x = Double.val 0) t.otus t.rows _ (fun _ _ => rfl)
      (fun r hr v hv => by rw [hzero r hr v hv])
  obtain ⟨M, hM, ⟨i, -, k, -, hatt⟩, -⟩ := matrix_max_spec
    { num_rows := t.max_otu + 1, num_cols := t.max_otu + 1, cell := t.raw_cells }
    (Nat.succ_pos _) (Nat.succ_pos _) (fun i _ j _ => raw_cells_val t i j)
  have hM0 : M = 0 := by
    have h := (hcells i k).symm.trans hatt
    cases h
    rfl
  subst hM0
  rw [ctor_of_parses t csv_file alpha 0 hparses hwf.1 hwf.2 hM]
  have hfun : (fun i j => Double.div (t.raw_cells i j) (Double.val 0)) =
      fun _ _ => Double.nan := by
    funext i j
    simp [hcells, Double.div]
  rw [hfun]

theorem zero_table_reads : zero_parsed.reads zero_table := by
  refine ⟨["id_1".toList], ["id_1,0".toList], by decide, ?_, ?_⟩
  · exact List.Forall₂.cons is_label_id_1 List.Forall₂.nil
  · exact List.Forall₂.cons ⟨"id_1".toList, ["0".toList], by decide, is_label_id_1,
      List.Forall₂.cons is_value_0 List.Forall₂.nil⟩ List.Forall₂.nil

theorem zero_parsed_well_formed : zero_parsed.well_formed := by
  have h : zero_parsed.max_otu = 1 := by decide
  refine ⟨by rw [h]; norm_num, ?_⟩
  rw [h]
  simp [zero_parsed]

theorem header_table_reads : header_parsed.reads header_table := by
  refine ⟨["id_1".toList], [], by decide, ?_, List.Forall₂.nil⟩
  exact List.Forall₂.cons is_label_id_1 List.Forall₂.nil

theorem header_parsed_well_formed : header_parsed.well_formed := by
  have h : header_parsed.max_otu = 1 := by decide
  refine ⟨by rw [h]; norm_num, ?_⟩
  simp [header_parsed]

theorem stray_table_reads : stray_parsed.reads stray_table := by
  refine ⟨["id_1".toList, "id_3".toList], ["id_2,5,6".toList], by decide, ?_, ?_⟩
  · exact List.Forall₂.cons is_label_id_1 (List.Forall₂.cons is_label_id_3 List.Forall₂.nil)
  · exact List.Forall₂.cons ⟨"id_2".toList, ["5".toList, "6".toList], by decide, is_label_id_2,
      List.Forall₂.cons is_value_5 (List.Forall₂.cons is_value_6 List.Forall₂.nil)⟩
      List.Forall₂.nil

theorem stray_parsed_max_otu : stray_parsed.max_otu = 3 := by decide

theorem stray_parsed_well_formed : stray_parsed.well_formed := by
  refine ⟨by rw [stray_parsed_max_otu]; norm_num, ?_⟩
  rw [stray_parsed_max_otu]
  simp [stray_parsed]

theorem stray_parsed_max :
    DMatrix.max { num_rows := stray_parsed.max_otu + 1,
                  num_cols := stray_parsed.max_otu + 1,
                  cell := stray_parsed.raw_cells } = Except.ok (Double.val 6) := by
  rw [stray_parsed_max_otu]
  norm_num [DMatrix.max, DMatrix.cells, List.range, List.range.loop, Table.raw_cells,
    write_rows, write_cells, stray_parsed, Double.lt]

/-- A loop fails when the body fails on one of its elements whatever the state. -/
theorem foldlM_error_of_mem {S T : Type} (f : S → T → Except Error S) (l : List T) (x : T)
    (hx : x ∈ l) (hf : ∀ s, ∃ e, f s x = Except.error e) (s : S) :
    ∃ e, l.foldlM f s = Except.error e := by
  induction l generalizing s with
  | nil => simp at hx
  | cons a rest ih =>
    rw [List.foldlM_cons]
    cases ha : f s a with
    | error e => exact ⟨e, rfl⟩
    | ok s1 =>
      rcases List.mem_cons.mp hx with rfl | hx
      · obtain ⟨e, he⟩ := hf s
        rw [he] at ha
        cases ha
      · exact ih hx s1

/-- The loop over the header labels collects one identifier for each label. -/
theorem header_loop_length (labels : List (List Char)) (acc : List Nat) (mx : Nat)
    (otus : List Nat) (m : Nat)
    (h : labels.foldlM header_body (acc, mx) = Except.ok (otus, m)) :
    otus.length = acc.length + labels.length := by
  induction labels generalizing acc mx with
  | nil =>
    simp only [List.foldlM_nil, pure, Except.pure] at h
    cases h
    simp
  | cons a rest ih =>
    rw [List.foldlM_cons] at h
    cases ha : header_body (acc, mx) a with
    | error e =>
      rw [ha] at h
      cases h
    | ok st =>
      rw [ha] at h
      unfold header_body at ha
      split at ha
      · cases ha
      · cases ha
        have := ih _ _ h
        simp at this ⊢
        omega

/-- A data row with more value fields than `otus_` has elements makes the body of the loop
over the rows fail, whatever the matrix. -/
theorem rows_body_too_many (otus_ : List Nat) (row : List Char)
    (row_as_vector : List (List Char)) (htok : tokenizeB row ',' [] = Except.ok row_as_vector)
    (hmore : otus_.length + 1 < row_as_vector.length) (m : DMatrix) :
    ∃ e, rows_body otus_ m row = Except.error e := by
  unfold rows_body
  rw [htok]
  simp only
  cases h0 : vector_at row_as_vector 0 with
  | error e => exact ⟨e, rfl⟩
  | ok label =>
    simp only
    cases h1 : read_otu label with
    | error e => exact ⟨e, rfl⟩
    | ok otu_1 =>
      simp only
      apply foldlM_error_of_mem _ _ (otus_.length + 1)
      · rw [List.mem_range']
        exact ⟨otus_.length, by omega, by omega⟩
      · intro s
        refine ⟨Error.out_of_range, ?_⟩
        have hnone : otus_.get? (otus_.length + 1 - 1) = none := by
          rw [Nat.add_sub_cancel, List.get?_eq_none]
        simp only [row_body, vector_at, hnone]

/-- The loop over the value fields of a data row with more values than columns are left
ends with `std::out_of_range`, when the row identifier and the columns are within the
matrix. -/
theorem row_loop_too_long (otus_ : List Nat) (label : List Char) (otu_1 n : Nat)
    (h1 : otu_1 < n) (fs : List (List Char)) (vs : List ℚ)
    (h : List.Forall₂ (fun field v => stod field = Except.ok (Double.val v)) fs vs) :
    ∀ (pre_f : List (List Char)) (pre_o os : List Nat) (m : DMatrix),
      otus_ = pre_o ++ os → pre_f.length = pre_o.length → os.length < fs.length →
      (∀ o ∈ os, o < n) → m.num_rows = n → m.num_cols = n →
      (List.range' (pre_f.length + 1) fs.length).foldlM
          (row_body otus_ (label :: (pre_f ++ fs)) otu_1) m =
        Except.error Error.out_of_range := by
  induction h with
  | nil =>
    intro pre_f pre_o os m _ _ hlt _ _ _
    simp at hlt
  | @cons f v fs1 vs1 hfv _ ih =>
    intro pre_f pre_o os m hotus hlen hlt hos hrows hcols
    rw [List.length_cons, List.range'_succ, List.foldlM_cons]
    cases os with
    | nil =>
      have hnone : otus_.get? (pre_f.length + 1 - 1) = none := by
        rw [Nat.add_sub_cancel, List.get?_eq_none, hotus, hlen]
        simp
      simp only [row_body, vector_at, hnone, bind, Except.bind]
    | cons o os1 =>
      have hat1 : vector_at otus_ (pre_f.length + 1 - 1) = Except.ok o := by
        rw [hotus, Nat.add_sub_cancel, hlen]
        exact vector_at_append_length pre_o o os1
      have hat2 : vector_at (label :: (pre_f ++ f :: fs1)) (pre_f.length + 1) = Except.ok f := by
        have := vector_at_append_length (label :: pre_f) f fs1
        simpa using this
      have hset : m.set otu_1 o (Double.val v) =
          Except.ok { m with cell := fun i j =>
            if i = otu_1 ∧ j = o then Double.val v else m.cell i j } := by
        have ho : o < n := hos o (by simp)
        simp [DMatrix.set, hrows, hcols, h1, ho]
      have hi := ih (pre_f ++ [f]) (pre_o ++ [o]) os1
        { m with cell := fun i j => if i = otu_1 ∧ j = o then Double.val v else m.cell i j }
        (by simp [hotus]) (by simp [hlen]) (by simpa using hlt)
        (fun x hx => hos x (by simp [hx])) hrows hcols
      simp only [List.length_append, List.length_singleton, List.append_assoc,
        List.singleton_append] at hi
      simp only [row_body, hat1, hat2, hfv, hset, bind, Except.bind]
      rw [hi]

/-- A data row that is parsed with more values than the header has columns makes the body of
the loop over the rows end with `std::out_of_range`. -/
theorem rows_body_too_long (otus_ : List Nat) (n : Nat) (hotus : ∀ o ∈ otus_, o < n)
    (m : DMatrix) (hrows : m.num_rows = n) (hcols : m.num_cols = n)
    (row : List Char) (r : Nat × List ℚ) (hr : row_parses row r) (h1 : r.1 < n)
    (hlen : otus_.length < r.2.length) :
    rows_body otus_ m row = Except.error Error.out_of_range := by
  obtain ⟨label, fields, htok, hlab, hfields⟩ := hr
  have hl : otus_.length < fields.length := by
    rw [hfields.length_eq]
    exact hlen
  have h := row_loop_too_long otus_ label r.1 n h1 fields r.2 hfields [] [] otus_ m rfl rfl hl
    hotus hrows hcols
  simp only [List.length_nil, List.nil_append, Nat.zero_add] at h
  simp only [rows_body, htok, vector_at, List.get?_cons_zero, hlab, List.length_cons,
    Nat.add_sub_cancel]
  exact h

/-- The loop over data rows that are parsed, one of them with more values than the header
has columns, ends with `std::out_of_range`. -/
theorem rows_loop_too_long (otus_ : List Nat) (n : Nat) (hotus : ∀ o ∈ otus_, o < n)
    (data : List (List Char)) (rows : List (Nat × List ℚ))
    (h : List.Forall₂ row_parses data rows) :
    ∀ (m : DMatrix), m.num_rows = n → m.num_cols = n → (∀ r ∈ rows, r.1 < n) →
      (∃ r ∈ rows, otus_.length < r.2.length) →
      data.foldlM (rows_body otus_) m = Except.error Error.out_of_range := by
  induction h with
  | nil =>
    intro m _ _ _ hex
    obtain ⟨r, hr, -⟩ := hex
    simp at hr
  | @cons row r data1 rows1 hr _ ih =>
    intro m hrows hcols hb hex
    rw [List.foldlM_cons]
    by_cases hlong : otus_.length < r.2.length
    · rw [rows_body_too_long otus_ n hotus m hrows hcols row r hr (hb r (by simp)) hlong]
      rfl
    · rw [rows_body_parses otus_ n hotus m hrows hcols row r hr (hb r (by simp)) (by omega)]
      simp only [bind, Except.bind]
      apply ih { m with cell := write_cells m.cell r.1 (otus_.zip r.2) } hrows hcols
        (fun x hx => hb x (by simp [hx]))
      obtain ⟨x, hx, hxl⟩ := hex
      rcases List.mem_cons.mp hx with rfl | hx
      · exact absurd hxl hlong
      · exact ⟨x, hx, hxl⟩

/-- On lines that are parsed as a table with the row identifiers within the bound of the
header and a row with more values than the header has columns, the constructor ends with
`std::out_of_range`. -/
theorem ctor_too_long (t : Table) (csv_file : List (List Char)) (alpha : Double)
    (hparses : t.parses csv_file) (hfit : t.max_otu + 1 < 2 ^ 64)
    (hb : ∀ r ∈ t.rows, r.1 ≤ t.max_otu)
    (hex : ∃ r ∈ t.rows, t.otus.length < r.2.length) :
    IBDDistanceCost.ctor csv_file alpha = Except.error Error.out_of_range := by
  obtain ⟨header, data, labels, rfl, htok, hlabels, hrows⟩ := hparses
  have hhead := header_loop labels t.otus hlabels [] 0
  have hmod : (t.max_otu + 1) % 2 ^ 64 = t.max_otu + 1 := Nat.mod_eq_of_lt hfit
  have hloop := rows_loop_too_long t.otus (t.max_otu + 1)
    (fun o ho => Nat.lt_succ_of_le (le_max_otu t o ho)) data t.rows hrows
    ((DMatrix.empty.resize (t.max_otu + 1) (t.max_otu + 1)).set_to_val (Double.val 0))
    rfl rfl (fun r hr => Nat.lt_succ_of_le (hb r hr)) hex
  have hmax : List.foldl Nat.max 0 t.otus = t.max_otu := rfl
  simp only [IBDDistanceCost.ctor, IBDDistanceCost.load, List.headD_cons, htok, hhead,
    List.nil_append, List.tail_cons, hmax, hmod, hloop]

theorem forall₂_mem_left {A B : Type} (R : A → B → Prop) (l1 : List A) (l2 : List B)
    (h : List.Forall₂ R l1 l2) (a : A) (ha : a ∈ l1) : ∃ b ∈ l2, R a b := by
  induction h with
  | nil => simp at ha
  | @cons x y xs ys hxy _ ih =>
    rcases List.mem_cons.mp ha with rfl | ha
    · exact ⟨y, by simp, hxy⟩
    · obtain ⟨b, hb, hab⟩ := ih ha
      exact ⟨b, by simp [hb], hab⟩

/-! The constructor: claims on degenerate and ill-formed tables -/

/-- C11, as stated, fails: on the table with the header `id_1` and the row `id_1,0`, whose
only value is zero, the constructor raises no error: it succeeds, and every cell of the
matrix of the model is not a number. -/
theorem all_zero_table_counterexample :
    zero_parsed.reads zero_table ∧ (∀ r ∈ zero_parsed.rows, ∀ v ∈ r.2, v = 0) ∧
      ∃ c, IBDDistanceCost.ctor zero_table (Double.val (1 / 2)) = Except.ok c ∧
        ∀ i j, c.node_rel_costs_.cell i j = Double.nan := by
  refine ⟨zero_table_reads, by simp [zero_parsed], _,
    ctor_all_zero zero_parsed zero_table _ (parses_of_reads _ _ zero_table_reads)
      zero_parsed_well_formed (by simp [zero_parsed]), fun _ _ => rfl⟩

/-- C11, amended: loading a well-formed table whose values are all zero, or that has no data
row, raises no error: the constructor succeeds, with the weighting parameter it is given and
a matrix of size `max_otu + 1` whose cells are all not a number. -/
theorem all_zero_table_loads (t : Table) (csv_file : List (List Char)) (alpha : Double)
    (hreads : t.reads csv_file) (hwf : t.well_formed)
    (hzero : ∀ r ∈ t.rows, ∀ v ∈ r.2, v = 0) :
    ∃ c, IBDDistanceCost.ctor csv_file alpha = Except.ok c ∧ c._alpha = alpha ∧
      c.node_rel_costs_.num_rows = t.max_otu + 1 ∧
      c.node_rel_costs_.num_cols = t.max_otu + 1 ∧
      ∀ i j, c.node_rel_costs_.cell i j = Double.nan :=
  ⟨_, ctor_all_zero t csv_file alpha (parses_of_reads t csv_file hreads) hwf hzero, rfl, rfl,
    rfl, fun _ _ => rfl⟩

/-- C11, witness: the table made of the header `id_1` alone, without data rows. -/
theorem all_zero_table_loads_witness :
    ∃ c, IBDDistanceCost.ctor header_table (Double.val (1 / 2)) = Except.ok c ∧
      c._alpha = Double.val (1 / 2) ∧
      c.node_rel_costs_.num_rows = header_parsed.max_otu + 1 ∧
      c.node_rel_costs_.num_cols = header_parsed.max_otu + 1 ∧
      ∀ i j, c.node_rel_costs_.cell i j = Double.nan :=
  all_zero_table_loads header_parsed header_table (Double.val (1 / 2)) header_table_reads
    header_parsed_well_formed (by simp [header_parsed])

/-- C12, as stated, fails: on the table with the header `id_1,id_3` and the row `id_2,5,6`,
whose identifier `2` is not among the header identifiers, the constructor raises no error:
it succeeds, and the values of the row are in the row `2` of the matrix, divided by the
maximum `6`. -/
theorem stray_row_counterexample :
    stray_parsed.reads stray_table ∧ (2 : Nat) ∉ stray_parsed.otus ∧
      ∃ c, IBDDistanceCost.ctor stray_table (Double.val (1 / 2)) = Except.ok c ∧
        c.node_rel_costs_.cell 2 1 = Double.val (5 / 6) ∧
        c.node_rel_costs_.cell 2 3 = Double.val 1 := by
  refine ⟨stray_table_reads, by decide, _,
    ctor_of_parses stray_parsed stray_table _ 6 (parses_of_reads _ _ stray_table_reads)
      stray_parsed_well_formed.1 stray_parsed_well_formed.2 stray_parsed_max, ?_, ?_⟩
  · norm_num [Table.raw_cells, write_rows, write_cells, stray_parsed, Double.div]
  · norm_num [Table.raw_cells, write_rows, write_cells, stray_parsed, Double.div]

/-- C12, amended: loading a well-formed table (every row identifier is at most the largest
header identifier) with distinct header identifiers and distinct row identifiers, whose first
data row has an identifier that is not among the header identifiers, raises no error: the
constructor succeeds, the matrix has the size `max_otu + 1`, and the values of that row are
in the row of its identifier, each divided by the maximum `M` of the matrix that the rows
have filled. -/
theorem stray_row_loads (t : Table) (csv_file : List (List Char)) (alpha : Double)
    (r : Nat × List ℚ) (rest : List (Nat × List ℚ)) (hreads : t.reads csv_file)
    (hwf : t.well_formed) (hheader : t.otus.Nodup) (hrowids : (t.rows.map Prod.fst).Nodup)
    (hrows : t.rows = r :: rest) (_hstray : r.1 ∉ t.otus) :
    ∃ c raw M, IBDDistanceCost.load csv_file = Except.ok (t.otus, raw) ∧
      raw.max = Except.ok (Double.val M) ∧
      IBDDistanceCost.ctor csv_file alpha = Except.ok c ∧
      c.node_rel_costs_.num_rows = t.max_otu + 1 ∧
      c.node_rel_costs_.num_cols = t.max_otu + 1 ∧
      ∀ (j o : Nat) (v : ℚ), t.otus[j]? = some o → r.2[j]? = some v →
        c.node_rel_costs_.cell r.1 o = Double.div (Double.val v) (Double.val M) := by
  have hparses := parses_of_reads t csv_file hreads
  obtain ⟨M, hM, hctor⟩ := ctor_succeeds t csv_file alpha hparses hwf
  refine ⟨_, _, M, load_of_parses t csv_file hparses hwf.1 hwf.2, hM, hctor, rfl, rfl, ?_⟩
  intro j o v ho hv
  have hr : r ∈ t.rows := by simp [hrows]
  have hcell : t.raw_cells r.1 o = Double.val v :=
    write_rows_written t.otus t.rows _ r o v hrowids hr
      (zip_keys_nodup t.otus r.2 hheader) (mem_zip_of_index t.otus r.2 j o v ho hv)
  simp only [hcell]

/-- C12, witness: the table with the header `id_1,id_3` and the row `id_2,5,6`. -/
theorem stray_row_loads_witness :
    ∃ c raw M, IBDDistanceCost.load stray_table = Except.ok (stray_parsed.otus, raw) ∧
      raw.max = Except.ok (Double.val M) ∧
      IBDDistanceCost.ctor stray_table (Double.val (1 / 2)) = Except.ok c ∧
      c.node_rel_costs_.num_rows = stray_parsed.max_otu + 1 ∧
      c.node_rel_costs_.num_cols = stray_parsed.max_otu + 1 ∧
      ∀ (j o : Nat) (v : ℚ), stray_parsed.otus[j]? = some o →
        (2, ([5, 6] : List ℚ)).2[j]? = some v →
        c.node_rel_costs_.cell (2, ([5, 6] : List ℚ)).1 o =
          Double.div (Double.val v) (Double.val M) :=
  stray_row_loads stray_parsed stray_table (Double.val (1 / 2)) (2, [5, 6]) []
    stray_table_reads stray_parsed_well_formed (by decide) (by decide) rfl (by decide)

/-- C13: when the header tokenizes into its labels and some data row tokenizes into more
than one label and one value field for each label of the header, the constructor produces no
model: it ends with an error.  When the lines are in the format of a table whose row
identifiers are within the bound of the header, the error is the `std::out_of_range` of
`otus_.at(pos - 1)`. -/
theorem too_many_fields (header : List Char) (data : List (List Char)) (alpha : Double)
    (labels : List (List Char)) (row : List Char) (row_as_vector : List (List Char))
    (hheader : tokenizeB header ',' [] = Except.ok labels) (hrow : row ∈ data)
    (htok : tokenizeB row ',' [] = Except.ok row_as_vector)
    (hmore : labels.length + 1 < row_as_vector.length) :
    ∃ e, IBDDistanceCost.ctor (header :: data) alpha = Except.error e ∧
      ∀ t : Table, t.reads (header :: data) → t.max_otu + 1 < 2 ^ 64 →
        (∀ r ∈ t.rows, r.1 ≤ t.max_otu) → e = Error.out_of_range := by
  have hfail : ∃ e, IBDDistanceCost.ctor (header :: data) alpha = Except.error e := by
    unfold IBDDistanceCost.ctor IBDDistanceCost.load
    simp only [List.headD_cons, hheader, List.tail_cons]
    cases hh : labels.foldlM header_body ([], 0) with
    | error e => exact ⟨e, rfl⟩
    | ok st =>
      obtain ⟨otus_, max_otu⟩ := st
      have hlen : otus_.length = labels.length := by
        have := header_loop_length labels [] 0 otus_ max_otu hh
        simpa using this
      obtain ⟨e, he⟩ := foldlM_error_of_mem (rows_body otus_) data row hrow
        (rows_body_too_many otus_ row row_as_vector htok (by omega))
        ((DMatrix.empty.resize ((max_otu + 1) % 2 ^ 64) ((max_otu + 1) % 2 ^ 64)).set_to_val
          (Double.val 0))
      simp only [he]
      exact ⟨e, rfl⟩
  obtain ⟨e, he⟩ := hfail
  refine ⟨e, he, ?_⟩
  intro t hreads hfit hb
  have hparses := parses_of_reads t _ hreads
  have hlong : ∃ r ∈ t.rows, t.otus.length < r.2.length := by
    obtain ⟨header1, data1, labels1, hcsv, htok1, hlabels1, hrows1⟩ := hparses
    obtain ⟨rfl, rfl⟩ := List.cons.inj hcsv
    rw [hheader] at htok1
    cases htok1
    obtain ⟨r, hr, label, fields, htokr, -, hfields⟩ :=
      forall₂_mem_left row_parses _ _ hrows1 row hrow
    rw [htok] at htokr
    cases htokr
    refine ⟨r, hr, ?_⟩
    rw [← hfields.length_eq, ← hlabels1.length_eq]
    simpa using hmore
  have hctor := ctor_too_long t _ alpha hparses hfit hb hlong
  rw [he] at hctor
  cases hctor
  rfl

/-- C13, witness: the header `id_1` declares one column, the row `id_1,0,2` has two value
fields. -/
theorem too_many_fields_witness :
    ∃ e, IBDDistanceCost.ctor ("id_1".toList :: ["id_1,0,2".toList]) (Double.val (1 / 2)) =
        Except.error e ∧
      ∀ t : Table, t.reads ("id_1".toList :: ["id_1,0,2".toList]) → t.max_otu + 1 < 2 ^ 64 →
        (∀ r ∈ t.rows, r.1 ≤ t.max_otu) → e = Error.out_of_range :=
  too_many_fields "id_1".toList ["id_1,0,2".toList] (Double.val (1 / 2)) ["id_1".toList]
    "id_1,0,2".toList ["id_1".toList, "0".toList, "2".toList] (by decide) (by decide)
    (by decide) (by decide)

/-! The cost queries -/

theorem double_mul_one (x : Double) : Double.mul (Double.val 1) x = x := by
  cases x with
  | val q => simp [Double.mul]
  | inf s =>
    have h : ¬ ((1 : ℚ) < 0) := by norm_num
    simp [Double.mul, h]
  | nan => rfl

theorem double_mul_zero_val (q : ℚ) : Double.mul (Double.val 0) (Double.val q) = Double.val 0 := by
  simp [Double.mul]

/-- The constructor keeps the weighting parameter it is given in `_alpha`. -/
theorem ctor_alpha (csv_file : List (List Char)) (alpha : Double) (c : IBDDistanceCost)
    (h : IBDDistanceCost.ctor csv_file alpha = Except.ok c) : c._alpha = alpha := by
  unfold IBDDistanceCost.ctor at h
  split at h
  · cases h
  · split at h
    · cases h
    · cases h
      rfl

/-- The conversion to `int` of a `double` that holds an integer within the range of `int`. -/
theorem double_to_int_intCast (z : Int) (h1 : int_min ≤ z) (h2 : z ≤ int_max) :
    double_to_int (Double.val (z : ℚ)) = Except.ok z := by
  simp [double_to_int, h1, h2]

/-- The conversion to `int` of a `double` between `0` and `1` gives `0`. -/
theorem double_to_int_fraction (q : ℚ) (h0 : 0 ≤ q) (h1 : q < 1) :
    double_to_int (Double.val q) = Except.ok 0 := by
  have hfloor : ⌊q⌋ = 0 := Int.floor_eq_zero_iff.mpr ⟨h0, h1⟩
  simp [double_to_int, h0, hfloor, int_min, int_max]

/-- The model that the constructor builds on the table of the end-to-end example. -/
theorem example_ctor (alpha : Double) :
    IBDDistanceCost.ctor example_table alpha =
      Except.ok { _alpha := alpha,
                  node_rel_costs_ :=
                    { num_rows := example_parsed.max_otu + 1,
                      num_cols := example_parsed.max_otu + 1,
                      cell := fun i j => Double.div (example_parsed.raw_cells i j)
                        (Double.val 6) },
                  otus_ := example_parsed.otus } :=
  ctor_of_parses example_parsed example_table alpha 6 example_table_parses
    example_parsed_valid.1 example_parsed_bounds example_parsed_max

/-! The cost queries: claims -/

/-- C14, the defect at the attributes `0.5` and `0`: the call of the overload on raw values
converts its arguments to the `int` values `0` and `0` and returns `0`, where the overload on
edges, its sibling, returns `(1 - 0.5) * |0.5 - 0| = 0.25` for the same attributes and the
same weighting value. -/
theorem edge_substitution_truncates :
    ∃ c, IBDDistanceCost.ctor example_table (Double.val (1 / 2)) = Except.ok c ∧
      c.EdgeSubstitutionCost_call (Double.val (1 / 2)) (Double.val (1 / 2)) (Double.val 0) =
        Except.ok (Double.val 0) ∧
      c.EdgeSubstitutionCost (Double.val (1 / 2)) { attr := Double.val (1 / 2) }
        { attr := Double.val 0 } = Double.val (1 / 4) := by
  refine ⟨_, example_ctor _, ?_, ?_⟩
  · have h1 : double_to_int (Double.val (1 / 2)) = Except.ok 0 :=
      double_to_int_fraction _ (by norm_num) (by norm_num)
    have h2 : double_to_int (Double.val 0) = Except.ok 0 :=
      double_to_int_fraction _ (by norm_num) (by norm_num)
    simp only [IBDDistanceCost.EdgeSubstitutionCost_call, h1, h2,
      IBDDistanceCost.EdgeSubstitutionCost_int]
    norm_num [int_min, int_max, Double.sub, Double.mul]
  · have habs : |(1 / 2 : ℚ) - 0| = 1 / 2 := by
      rw [sub_zero]
      exact abs_of_pos (by norm_num)
    simp only [IBDDistanceCost.EdgeSubstitutionCost, Double.sub, Double.abs, Double.mul, habs]
    norm_num

/-- C15, as stated, fails: with `alpha = 0` the constructor succeeds on the table made of the
header `id_1` alone, every cell of its matrix is not a number, and the node substitution
cost of `(1, 1)` is `0 * NaN`, not a number, and not `0`. -/
theorem cost_extremes_counterexample :
    ∃ c, IBDDistanceCost.ctor header_table (Double.val 0) = Except.ok c ∧
      c.NodeSubstitutionCost { attr := 1 } { attr := 1 } = Except.ok Double.nan ∧
      c.NodeSubstitutionCost { attr := 1 } { attr := 1 } ≠ Except.ok (Double.val 0) := by
  have hcost : IBDDistanceCost.NodeSubstitutionCost
      { _alpha := Double.val 0,
        node_rel_costs_ :=
          { num_rows := header_parsed.max_otu + 1, num_cols := header_parsed.max_otu + 1,
            cell := fun _ _ => Double.nan },
        otus_ := header_parsed.otus } { attr := 1 } { attr := 1 } = Except.ok Double.nan := by
    have hm : header_parsed.max_otu = 1 := by decide
    have h1 : to_size_t 1 = 1 := by decide
    simp [IBDDistanceCost.NodeSubstitutionCost, DMatrix.get, h1, hm, Double.mul]
  refine ⟨_, ctor_all_zero header_parsed header_table _
    (parses_of_reads _ _ header_table_reads) header_parsed_well_formed
    (by simp [header_parsed]), hcost, ?_⟩
  rw [hcost]
  intro h
  cases h

/-- C15, amended: in a model built with `alpha = 1`, the edge deletion and insertion costs are
`0`, the node deletion and insertion costs are `1`, and the node substitution cost of a pair
within the matrix is the cell of the pair; in a model built with `alpha = 0`, the node
deletion and insertion costs are `0`, the edge deletion and insertion costs are `1`, and the
node substitution cost of a pair within the matrix whose cell is finite is `0`. -/
theorem cost_extremes (csv_file : List (List Char)) (c1 c0 : IBDDistanceCost)
    (h1 : IBDDistanceCost.ctor csv_file (Double.val 1) = Except.ok c1)
    (h0 : IBDDistanceCost.ctor csv_file (Double.val 0) = Except.ok c0) :
    ((∀ e, c1.EdgeDeletionCost e = Double.val 0 ∧ c1.EdgeInsertionCost e = Double.val 0) ∧
      (∀ n, c1.NodeDeletionCost n = Double.val 1 ∧ c1.NodeInsertionCost n = Double.val 1) ∧
      ∀ n1 n2 x, c1.node_rel_costs_.get (to_size_t n1.attr) (to_size_t n2.attr) = Except.ok x →
        c1.NodeSubstitutionCost n1 n2 = Except.ok x) ∧
    ((∀ n, c0.NodeDeletionCost n = Double.val 0 ∧ c0.NodeInsertionCost n = Double.val 0) ∧
      (∀ e, c0.EdgeDeletionCost e = Double.val 1 ∧ c0.EdgeInsertionCost e = Double.val 1) ∧
      ∀ n1 n2 q,
        c0.node_rel_costs_.get (to_size_t n1.attr) (to_size_t n2.attr) =
          Except.ok (Double.val q) →
        c0.NodeSubstitutionCost n1 n2 = Except.ok (Double.val 0)) := by
  have ha1 := ctor_alpha csv_file _ c1 h1
  have ha0 := ctor_alpha csv_file _ c0 h0
  refine ⟨⟨?_, ?_, ?_⟩, ?_, ?_, ?_⟩
  · intro e
    simp [IBDDistanceCost.EdgeDeletionCost, IBDDistanceCost.EdgeInsertionCost, ha1, Double.sub]
  · intro n
    simp [IBDDistanceCost.NodeDeletionCost, IBDDistanceCost.NodeInsertionCost, ha1]
  · intro n1 n2 x hx
    simp only [IBDDistanceCost.NodeSubstitutionCost, hx, ha1, double_mul_one]
  · intro n
    simp [IBDDistanceCost.NodeDeletionCost, IBDDistanceCost.NodeInsertionCost, ha0]
  · intro e
    simp [IBDDistanceCost.EdgeDeletionCost, IBDDistanceCost.EdgeInsertionCost, ha0, Double.sub]
  · intro n1 n2 q hq
    simp only [IBDDistanceCost.NodeSubstitutionCost, hq, ha0, double_mul_zero_val]

/-- C15, witness: the models built on the table of the end-to-end example with `alpha = 1`
and with `alpha = 0`. -/
theorem cost_extremes_witness :
    ∃ c1 c0, IBDDistanceCost.ctor example_table (Double.val 1) = Except.ok c1 ∧
      IBDDistanceCost.ctor example_table (Double.val 0) = Except.ok c0 ∧
      ((∀ e, c1.EdgeDeletionCost e = Double.val 0 ∧ c1.EdgeInsertionCost e = Double.val 0) ∧
        (∀ n, c1.NodeDeletionCost n = Double.val 1 ∧ c1.NodeInsertionCost n = Double.val 1) ∧
        ∀ n1 n2 x,
          c1.node_rel_costs_.get (to_size_t n1.attr) (to_size_t n2.attr) = Except.ok x →
          c1.NodeSubstitutionCost n1 n2 = Except.ok x) ∧
      ((∀ n, c0.NodeDeletionCost n = Double.val 0 ∧ c0.NodeInsertionCost n = Double.val 0) ∧
        (∀ e, c0.EdgeDeletionCost e = Double.val 1 ∧ c0.EdgeInsertionCost e = Double.val 1) ∧
        ∀ n1 n2 q,
          c0.node_rel_costs_.get (to_size_t n1.attr) (to_size_t n2.attr) =
            Except.ok (Double.val q) →
          c0.NodeSubstitutionCost n1 n2 = Except.ok (Double.val 0)) :=
  ⟨_, _, example_ctor _, example_ctor _,
    cost_extremes example_table _ _ (example_ctor _) (example_ctor _)⟩

/-! Symmetric tables -/

/-- A row that no data row names keeps its zeros. -/
theorem raw_cells_untouched_row (t : Table) (a b : Nat) (h : a ∉ t.rows.map Prod.fst) :
    t.raw_cells a b = Double.val 0 := by
  unfold Table.raw_cells
  rw [write_rows_untouched]
  intro r hr
  exact Or.inl (fun e => h (List.mem_map.mpr ⟨r, hr, e.symm⟩))

/-- A column that the header does not name keeps its zeros. -/
theorem raw_cells_untouched_col (t : Table) (a b : Nat) (h : b ∉ t.otus) :
    t.raw_cells a b = Double.val 0 := by
  unfold Table.raw_cells
  rw [write_rows_untouched]
  intro r _
  refine Or.inr (fun w hw e => h ?_)
  obtain ⟨x, y⟩ := w
  have := (List.of_mem_zip hw).1
  simp only at e
  rw [← e]
  exact this

/-- The cells that a symmetric table fills are symmetric. -/
theorem raw_cells_symmetric (t : Table)
    (hcols : ∀ r ∈ t.rows, r.2.length = t.otus.length) (hheader : t.otus.Nodup)
    (hrowids : (t.rows.map Prod.fst).Nodup)
    (hsame : ∀ a, a ∈ t.rows.map Prod.fst ↔ a ∈ t.otus)
    (hsym : ∀ r1 ∈ t.rows, ∀ r2 ∈ t.rows, ∀ j1 j2 : Nat,
      t.otus[j1]? = some r1.1 → t.otus[j2]? = some r2.1 → r1.2[j2]? = r2.2[j1]?)
    (a b : Nat) : t.raw_cells a b = t.raw_cells b a := by
  by_cases ha : a ∈ t.otus
  · by_cases hb : b ∈ t.otus
    · obtain ⟨ra, hra, rfl⟩ := List.mem_map.mp ((hsame a).mpr ha)
      obtain ⟨rb, hrb, rfl⟩ := List.mem_map.mp ((hsame b).mpr hb)
      obtain ⟨ja, hja⟩ := List.mem_iff_getElem?.mp ha
      obtain ⟨jb, hjb⟩ := List.mem_iff_getElem?.mp hb
      have hjblt : jb < ra.2.length := by
        rw [hcols ra hra]
        exact (List.getElem?_eq_some.mp hjb).1
      have hv : ra.2[jb]? = some ra.2[jb] := List.getElem?_eq_getElem hjblt
      have hv1 : rb.2[ja]? = some ra.2[jb] := by
        rw [← hsym ra hra rb hrb ja jb hja hjb]
        exact hv
      have h1 : t.raw_cells ra.1 rb.1 = Double.val ra.2[jb] :=
        write_rows_written t.otus t.rows _ ra rb.1 ra.2[jb] hrowids hra
          (zip_keys_nodup t.otus ra.2 hheader) (mem_zip_of_index t.otus ra.2 jb _ _ hjb hv)
      have h2 : t.raw_cells rb.1 ra.1 = Double.val ra.2[jb] :=
        write_rows_written t.otus t.rows _ rb ra.1 ra.2[jb] hrowids hrb
          (zip_keys_nodup t.otus rb.2 hheader) (mem_zip_of_index t.otus rb.2 ja _ _ hja hv1)
      rw [h1, h2]
    · rw [raw_cells_untouched_col t a b hb,
        raw_cells_untouched_row t b a (fun h => hb ((hsame b).mp h))]
  · rw [raw_cells_untouched_row t a b (fun h => ha ((hsame a).mp h)),
      raw_cells_untouched_col t b a ha]

/-- C16: for a symmetric table (well-formed, one value per column in every row, distinct
header identifiers, distinct row identifiers, the same identifiers in the rows and in the
header, and the value at row `r`, column `c` equal to the value at row `c`, column `r`) whose
matrix has a positive maximum, the constructor succeeds and the node substitution cost is
symmetric on the identifiers up to `max_otu`. -/
theorem symmetric_table_cost (t : Table) (csv_file : List (List Char)) (alpha : Double)
    (raw : DMatrix) (M : ℚ) (hreads : t.reads csv_file) (hwf : t.well_formed)
    (hcols : ∀ r ∈ t.rows, r.2.length = t.otus.length) (hheader : t.otus.Nodup)
    (hrowids : (t.rows.map Prod.fst).Nodup)
    (hsame : ∀ a, a ∈ t.rows.map Prod.fst ↔ a ∈ t.otus)
    (hsym : ∀ r1 ∈ t.rows, ∀ r2 ∈ t.rows, ∀ j1 j2 : Nat,
      t.otus[j1]? = some r1.1 → t.otus[j2]? = some r2.1 → r1.2[j2]? = r2.2[j1]?)
    (hload : IBDDistanceCost.load csv_file = Except.ok (t.otus, raw))
    (hmax : raw.max = Except.ok (Double.val M)) (_hM : 0 < M) :
    ∃ c, IBDDistanceCost.ctor csv_file alpha = Except.ok c ∧
      ∀ a b : Nat, a ≤ t.max_otu → b ≤ t.max_otu →
        ∃ x, c.SubstitutionCost a b = Except.ok x ∧ c.SubstitutionCost b a = Except.ok x := by
  have hparses := parses_of_reads t csv_file hreads
  obtain ⟨hfit, hb⟩ := hwf
  have hraw : raw =
      { num_rows := t.max_otu + 1, num_cols := t.max_otu + 1, cell := t.raw_cells } := by
    have h := (load_of_parses t csv_file hparses hfit hb).symm.trans hload
    simp only [Except.ok.injEq, Prod.mk.injEq, true_and] at h
    exact h.symm
  subst hraw
  refine ⟨_, ctor_of_parses t csv_file alpha M hparses hfit hb hmax, ?_⟩
  intro a b ha hb1
  have ha1 : a < t.max_otu + 1 := Nat.lt_succ_of_le ha
  have hb2 : b < t.max_otu + 1 := Nat.lt_succ_of_le hb1
  refine ⟨Double.mul alpha (Double.div (t.raw_cells a b) (Double.val M)), ?_, ?_⟩
  · simp only [IBDDistanceCost.SubstitutionCost, DMatrix.get,
      to_size_t_natCast a (by omega), to_size_t_natCast b (by omega), ha1, hb2, and_self,
      if_true]
  · simp only [IBDDistanceCost.SubstitutionCost, DMatrix.get,
      to_size_t_natCast a (by omega), to_size_t_natCast b (by omega), ha1, hb2, and_self,
      if_true, raw_cells_symmetric t hcols hheader hrowids hsame hsym a b]

theorem example_parsed_symmetric :
    ∀ r1 ∈ example_parsed.rows, ∀ r2 ∈ example_parsed.rows, ∀ j1 j2 : Nat,
      example_parsed.otus[j1]? = some r1.1 → example_parsed.otus[j2]? = some r2.1 →
      r1.2[j2]? = r2.2[j1]? := by
  intro r1 h1 r2 h2 j1 j2 e1 e2
  simp only [example_parsed, List.mem_cons, List.mem_singleton, List.not_mem_nil,
    or_false] at h1 h2 e1 e2
  rcases h1 with rfl | rfl | rfl <;> rcases h2 with rfl | rfl | rfl <;>
    rcases j1 with _ | _ | _ | j1 <;> rcases j2 with _ | _ | _ | j2 <;> simp at e1 e2 ⊢

/-- C16, witness: the table of the end-to-end example is symmetric. -/
theorem symmetric_table_cost_witness :
    ∃ c, IBDDistanceCost.ctor example_table (Double.val (1 / 2)) = Except.ok c ∧
      ∀ a b : Nat, a ≤ example_parsed.max_otu → b ≤ example_parsed.max_otu →
        ∃ x, c.SubstitutionCost a b = Except.ok x ∧ c.SubstitutionCost b a = Except.ok x :=
  symmetric_table_cost example_parsed example_table (Double.val (1 / 2)) _ 6
    example_table_reads ⟨example_parsed_valid.1, example_parsed_bounds⟩
    (by simp [example_parsed]) (by decide) (by decide) (fun _ => Iff.rfl)
    example_parsed_symmetric
    (load_of_parses example_parsed example_table example_table_parses example_parsed_valid.1
      example_parsed_bounds)
    example_parsed_max (by norm_num)

/-! Rescaled tables -/

/-- A relation between the values of two rows with the same columns carries over to their
cells. -/
theorem write_cells_rel (R : Double → Double → Prop) (f : ℚ → ℚ) (row : Nat)
    (ws : List (Nat × ℚ)) (cell1 cell2 : Nat → Nat → Double)
    (hcell : ∀ i j, R (cell1 i j) (cell2 i j))
    (hws : ∀ w ∈ ws, R (Double.val w.2) (Double.val (f w.2))) (i j : Nat) :
    R (write_cells cell1 row ws i j)
      (write_cells cell2 row (ws.map (fun w => (w.1, f w.2))) i j) := by
  induction ws generalizing cell1 cell2 with
  | nil => exact hcell i j
  | cons w rest ih =>
    obtain ⟨k, u⟩ := w
    rw [List.map_cons, write_cells, write_cells]
    apply ih
    · intro a b
      by_cases hab : a = row ∧ b = k
      · rw [if_pos hab, if_pos hab]
        exact hws (k, u) (by simp)
      · rw [if_neg hab, if_neg hab]
        exact hcell a b
    · exact fun w hw => hws w (by simp [hw])

/-- A relation between the values of two tables with the same identifiers carries over to
their cells. -/
theorem write_rows_rel (R : Double → Double → Prop) (f : ℚ → ℚ) (otus : List Nat)
    (rows : List (Nat × List ℚ)) (cell1 cell2 : Nat → Nat → Double)
    (hcell : ∀ i j, R (cell1 i j) (cell2 i j)) (hf : ∀ v, R (Double.val v) (Double.val (f v)))
    (i j : Nat) :
    R (write_rows otus cell1 rows i j)
      (write_rows otus cell2 (rows.map (fun r => (r.1, r.2.map f))) i j) := by
  induction rows generalizing cell1 cell2 with
  | nil => exact hcell i j
  | cons r rest ih =>
    rw [List.map_cons, write_rows_cons, write_rows_cons]
    apply ih
    intro a b
    have hzip : otus.zip (r.2.map f) = (otus.zip r.2).map (fun w => (w.1, f w.2)) := by
      rw [List.zip_map_right]
      rfl
    simp only [hzip]
    exact write_cells_rel R f r.1 _ cell1 cell2 hcell (fun w _ => hf w.2) a b

/-- The cells that a table fills, when its values are multiplied by `k`. -/
theorem raw_cells_scaled (t t1 : Table) (k : ℚ) (hotus : t1.otus = t.otus)
    (hrows : t1.rows = t.rows.map (fun r => (r.1, r.2.map (fun v => k * v)))) (i j : Nat) :
    ∃ q, t.raw_cells i j = Double.val q ∧ t1.raw_cells i j = Double.val (k * q) := by
  unfold Table.raw_cells
  rw [hotus, hrows]
  exact write_rows_rel (fun x y => ∃ q, x = Double.val q ∧ y = Double.val (k * q))
    (fun v => k * v) t.otus t.rows _ _ (fun _ _ => ⟨0, rfl, by simp⟩)
    (fun v => ⟨v, rfl, rfl⟩) i j

theorem max_otu_eq (t t1 : Table) (hotus : t1.otus = t.otus) : t1.max_otu = t.max_otu := by
  unfold Table.max_otu
  rw [hotus]

/-- In exact arithmetic, without the rounding of `double`: for a well-formed table whose
matrix has a positive maximum and a real `k > 0`, the table with every value multiplied by
`k` loads as well, into the same matrix: the same size and the same cells, hence the same
node substitution cost for every pair of identifiers. -/
theorem rescaling_exact_arithmetic (t t1 : Table) (csv_file csv_file1 : List (List Char))
    (alpha : Double) (k : ℚ) (raw : DMatrix) (M : ℚ) (hk : 0 < k)
    (hreads : t.reads csv_file) (hreads1 : t1.reads csv_file1) (hotus : t1.otus = t.otus)
    (hrows : t1.rows = t.rows.map (fun r => (r.1, r.2.map (fun v => k * v))))
    (hwf : t.well_formed)
    (hload : IBDDistanceCost.load csv_file = Except.ok (t.otus, raw))
    (hmax : raw.max = Except.ok (Double.val M)) (hM : 0 < M) :
    ∃ c c1, IBDDistanceCost.ctor csv_file alpha = Except.ok c ∧
      IBDDistanceCost.ctor csv_file1 alpha = Except.ok c1 ∧
      c1.node_rel_costs_.num_rows = c.node_rel_costs_.num_rows ∧
      c1.node_rel_costs_.num_cols = c.node_rel_costs_.num_cols ∧
      (∀ i j, c1.node_rel_costs_.cell i j = c.node_rel_costs_.cell i j) ∧
      ∀ a b : Int, c1.SubstitutionCost a b = c.SubstitutionCost a b := by
  have hparses := parses_of_reads t csv_file hreads
  have hparses1 := parses_of_reads t1 csv_file1 hreads1
  have hmo := max_otu_eq t t1 hotus
  obtain ⟨hfit, hb⟩ := hwf
  have hwf1 : t1.well_formed := by
    refine ⟨by rw [hmo]; exact hfit, ?_⟩
    intro r hr
    rw [hrows] at hr
    obtain ⟨r0, hr0, rfl⟩ := List.mem_map.mp hr
    rw [hmo, hotus]
    simpa using hb r0 hr0
  have hraw : raw =
      { num_rows := t.max_otu + 1, num_cols := t.max_otu + 1, cell := t.raw_cells } := by
    have h := (load_of_parses t csv_file hparses hfit hb).symm.trans hload
    simp only [Except.ok.injEq, Prod.mk.injEq, true_and] at h
    exact h.symm
  subst hraw
  obtain ⟨M0, hM0, ⟨i0, hi0, j0, hj0, hatt0⟩, hall0⟩ := matrix_max_spec
    { num_rows := t.max_otu + 1, num_cols := t.max_otu + 1, cell := t.raw_cells }
    (Nat.succ_pos _) (Nat.succ_pos _) (fun i _ j _ => raw_cells_val t i j)
  have hMM : M0 = M := by
    rw [hmax] at hM0
    cases hM0
    rfl
  subst hMM
  obtain ⟨M1, hM1, ⟨i1, hi1, j1, hj1, hatt1⟩, hall1⟩ := matrix_max_spec
    { num_rows := t1.max_otu + 1, num_cols := t1.max_otu + 1, cell := t1.raw_cells }
    (Nat.succ_pos _) (Nat.succ_pos _) (fun i _ j _ => raw_cells_val t1 i j)
  have hM1eq : M1 = k * M0 := by
    apply le_antisymm
    · obtain ⟨q, hq, hq1⟩ := raw_cells_scaled t t1 k hotus hrows i1 j1
      simp only at hatt1
      rw [hq1] at hatt1
      cases hatt1
      have : q ≤ M0 := hall0 i1 (by simpa [hmo] using hi1) j1 (by simpa [hmo] using hj1) q hq
      exact mul_le_mul_of_nonneg_left this (le_of_lt hk)
    · obtain ⟨q, hq, hq1⟩ := raw_cells_scaled t t1 k hotus hrows i0 j0
      simp only at hatt0
      rw [hatt0] at hq
      cases hq
      exact hall1 i0 (by simpa [hmo] using hi0) j0 (by simpa [hmo] using hj0) _ hq1
  subst hM1eq
  have hcells : ∀ i j, Double.div (t1.raw_cells i j) (Double.val (k * M0)) =
      Double.div (t.raw_cells i j) (Double.val M0) := by
    intro i j
    obtain ⟨q, hq, hq1⟩ := raw_cells_scaled t t1 k hotus hrows i j
    have hk0 : k ≠ 0 := ne_of_gt hk
    have hM0ne : M0 ≠ 0 := ne_of_gt hM
    rw [hq, hq1]
    simp only [Double.div, ne_eq, mul_eq_zero, hk0, hM0ne, or_self, not_false_eq_true, if_true]
    rw [mul_div_mul_left q M0 hk0]
  refine ⟨_, _, ctor_of_parses t csv_file alpha M0 hparses hfit hb hmax,
    ctor_of_parses t1 csv_file1 alpha (k * M0) hparses1 hwf1.1 hwf1.2 hM1, ?_, ?_, hcells, ?_⟩
  · simp only [hmo]
  · simp only [hmo]
  · intro a b
    simp only [IBDDistanceCost.SubstitutionCost, DMatrix.get, hmo, hcells]

theorem small_parsed_max_otu : small_parsed.max_otu = 1 := by decide

theorem small_parsed_max :
    DMatrix.max { num_rows := small_parsed.max_otu + 1,
                  num_cols := small_parsed.max_otu + 1,
                  cell := small_parsed.raw_cells } = Except.ok (Double.val 2) := by
  rw [small_parsed_max_otu]
  norm_num [DMatrix.max, DMatrix.cells, List.range, List.range.loop, Table.raw_cells,
    write_rows, write_cells, small_parsed, Double.lt]

/-! The rounding of binary64 -/

end IBDCostFunction
